import Mathlib

/-!
Verification development for the KeyWordGenerator repository.

This file gives a shallow embedding, in Lean 4, of the two reviewable cores of
the repository plus the validation layers referenced by the claims:

* the structured-response repairer inside
  src/openai_client.py, function categorize_keywords_with_gpt52 (the
  parse-and-repair stage, lines 154-216, plus the input validation at lines
  37-42);
* the geo-target resolver in src/geo_targets.py, functions
  resolve_country_to_geo_target and resolve_countries;
* the pre-network validation of generate_keyword_ideas in
  src/google_ads_client.py.

Modelling conventions:

* Text is modelled as List Char (Python strings are sequences of code points,
  so list indices coincide with Python string indices).  String-valued inputs
  are converted at the boundary with String.data.
* Python's json.loads is modelled by the executable parser below.  The parser
  accepts exactly the inputs the CPython json scanner accepts (object/array
  structure, string escapes, the number regex, null/true/false, NaN/Infinity),
  but keeps scalar tokens at lexeme level: numbers and strings store their raw
  source characters rather than decoded values.  Parser failure messages are
  abstracted (the claims under check never constrain the precise Python
  exception text, only which branch is taken and the record shape).
  CPython's recursion limit (a RecursionError on input nested thousands deep)
  is not modelled; the fuel passed by loads is always sufficient because each
  recursion step consumes at least one character.
* Python dicts are modelled as insertion-ordered association lists; assignment
  d[k] = v updates in place when the key exists and appends otherwise.
* External effects (the Google Ads suggestion service, the OpenAI call, the
  cache file) are passed as explicit function/state parameters: a query
  function String to Except String (List GeoTarget), an llm function, and the
  loaded cache as an argument with the final cache returned (load_cache /
  save_cache perform whole-file read/write of exactly that value).
* Python str.strip() is modelled over the ASCII whitespace set (space, \t,
  \n, \r, \v, \f, the file separators 0x1c-0x1f and 0x85); the claims only
  exercise ASCII text.
-/

/-! ## Character classes and list utilities -/

/-- Whitespace for Python str.strip(). -/
def isPySpace (c : Char) : Bool :=
  c = ' ' || c = '\t' || c = '\n' || c = '\r' || c = '\x0b' || c = '\x0c' ||
  (0x1c ≤ c.toNat && c.toNat ≤ 0x1f) || c.toNat = 0x85

/-- Whitespace recognised by the CPython json scanner (space, tab, LF, CR). -/
def isJWs (c : Char) : Bool :=
  c = ' ' || c = '\t' || c = '\n' || c = '\r'

/-- Drop trailing characters satisfying p. -/
def dropTrail (p : Char → Bool) (xs : List Char) : List Char :=
  (xs.reverse.dropWhile p).reverse

/-- Python str.strip(): remove leading and trailing whitespace. -/
def pyStripL (xs : List Char) : List Char :=
  dropTrail isPySpace (xs.dropWhile isPySpace)

/-- Python str.strip() on String values. -/
def pyStripS (s : String) : String :=
  String.mk (pyStripL s.data)

/-- Index of the first occurrence of a character (Python str.find). -/
def findIdxCh (c : Char) : List Char → Option Nat
  | [] => none
  | x :: xs => if x = c then some 0 else (findIdxCh c xs).map (· + 1)

/-- Index of the last occurrence of a character (Python str.rfind). -/
def rfindIdxCh (c : Char) (xs : List Char) : Option Nat :=
  (findIdxCh c xs.reverse).map (fun i => xs.length - 1 - i)

/-- Python slice s[a : b+1]. -/
def sliceTo (xs : List Char) (a b : Nat) : List Char :=
  (xs.drop a).take (b + 1 - a)

/-- Count occurrences of a character (Python str.count for 1-char needles). -/
def countCh (c : Char) : List Char → Nat
  | [] => 0
  | x :: xs => (if x = c then 1 else 0) + countCh c xs

/-- Whether pat is a prefix of s. -/
def startsWithL : List Char → List Char → Bool
  | [], _ => true
  | _ :: _, [] => false
  | p :: ps, x :: xs => p = x && startsWithL ps xs

/-- Whether pat occurs as a contiguous substring of s (Python operator in). -/
def hasSub (pat : List Char) : List Char → Bool
  | [] => startsWithL pat []
  | x :: xs => startsWithL pat (x :: xs) || hasSub pat xs

/-- Python str.replace old new: left-to-right, non-overlapping, all
occurrences.  For empty old the Python semantics (inserting between every
character) is not needed by the source, which only replaces non-empty
patterns; we return the string unchanged in that degenerate case. -/
def replaceAllF (old new : List Char) : Nat → List Char → List Char
  | 0, s => s
  | _ + 1, [] => []
  | fuel + 1, x :: xs =>
    match old with
    | [] => x :: xs
    | o :: os =>
      if startsWithL (o :: os) (x :: xs) then
        new ++ replaceAllF (o :: os) new fuel (xs.drop os.length)
      else
        x :: replaceAllF (o :: os) new fuel xs

/-- Python str.replace with the fuel supplied: every step consumes at least
one character, so length-plus-one fuel never runs out. -/
def replaceAll (old new s : List Char) : List Char :=
  replaceAllF old new (s.length + 1) s

/-- Python str.split on a newline: keeps empty segments, [""] for "". -/
def splitNl : List Char → List (List Char)
  | [] => [[]]
  | c :: cs =>
    if c = '\n' then [] :: splitNl cs
    else
      match splitNl cs with
      | [] => [[c]]
      | l :: ls => (c :: l) :: ls

/-- Python newline.join. -/
def joinNl : List (List Char) → List Char
  | [] => []
  | [l] => l
  | l :: ls => l ++ '\n' :: joinNl ls

/-! ## JSON values

Numbers and strings keep their raw lexemes: num stores the matched number
token, str stores the characters between the quotes with escapes undecoded.
Two identical source texts always parse to equal values, which is the
granularity the claims need. -/

inductive Json where
  | null : Json
  | bool : Bool → Json
  | num : String → Json
  | str : String → Json
  | arr : List Json → Json
  | obj : List (String × Json) → Json
deriving Repr

/-- Whether a value is a JSON object (a Python dict after json.loads). -/
def Json.isObj : Json → Bool
  | .obj _ => true
  | _ => false

/-- Whether a value is a record whose sole field is named error and holds a
string: the degraded outcome of the repairer. -/
def isErrRecord : Json → Bool
  | .obj [(k, .str _)] => k = "error"
  | _ => false

/-! ## The json.loads model -/

/-- Skip json whitespace. -/
def skipWs : List Char → List Char
  | [] => []
  | c :: cs => if isJWs c then skipWs cs else c :: cs

/-- Hex digit test for string \u escapes. -/
def isHexDig (c : Char) : Bool :=
  c.isDigit || ('a' ≤ c && c ≤ 'f') || ('A' ≤ c && c ≤ 'F')

/-- Single-character escapes accepted after a backslash. -/
def escOk (c : Char) : Bool :=
  c = '"' || c = '\\' || c = '/' || c = 'b' || c = 'f' || c = 'n' || c = 'r' || c = 't'

/-- Parse a json string body, positioned right after the opening quote.
Returns the raw (undecoded) characters between the quotes and the remainder
after the closing quote.  Mirrors the CPython scanner in strict mode: rejects
unescaped control characters below 0x20, invalid escapes and truncation.
The fuel only bounds recursion depth; every recursive call consumes at least
one character, so any fuel above the input length behaves identically. -/
def parseStrF : Nat → List Char → Except String (List Char × List Char)
  | 0, _ => .error "Depth exhausted"
  | _ + 1, [] => .error "Unterminated string"
  | f + 1, c :: cs =>
    if c = '"' then .ok ([], cs)
    else if c = '\\' then
      match cs with
      | [] => .error "Unterminated string"
      | e :: cs' =>
        if escOk e then
          match parseStrF f cs' with
          | .ok (b, r) => .ok ('\\' :: e :: b, r)
          | .error m => .error m
        else if e = 'u' then
          match cs' with
          | h1 :: h2 :: h3 :: h4 :: cs'' =>
            if isHexDig h1 && isHexDig h2 && isHexDig h3 && isHexDig h4 then
              match parseStrF f cs'' with
              | .ok (b, r) => .ok ('\\' :: 'u' :: h1 :: h2 :: h3 :: h4 :: b, r)
              | .error m => .error m
            else .error "Invalid hex escape"
          | _ => .error "Invalid hex escape"
        else .error "Invalid escape"
    else if c.toNat < 32 then .error "Invalid control character"
    else
      match parseStrF f cs with
      | .ok (b, r) => .ok (c :: b, r)
      | .error m => .error m

/-- Characters that could extend a number token to its right; a boundary
character that is none of these leaves the munch of parseNum unchanged. -/
def extChar (c : Char) : Bool :=
  c.isDigit || c = '.' || c = 'e' || c = 'E' || c = '+' || c = '-'

/-- Fractional part (\.\d+)? of the CPython number regex, munched after the
integer part acc; returns the lexeme so far and the remainder. -/
def fracPart (acc : List Char) (r : List Char) : List Char × List Char :=
  match r with
  | '.' :: d :: rest =>
    if d.isDigit then
      (acc ++ '.' :: (d :: rest).takeWhile Char.isDigit, (d :: rest).dropWhile Char.isDigit)
    else (acc, '.' :: d :: rest)
  | _ => (acc, r)

/-- Exponent part ([eE][-+]?\d+)? of the CPython number regex, munched after
the integer and fractional parts acc; returns the full lexeme and the
remainder. -/
def expPart (acc : List Char) (r : List Char) : List Char × List Char :=
  match r with
  | e :: rest =>
    if e = 'e' || e = 'E' then
      match rest with
      | s :: rest₂ =>
        if s = '+' || s = '-' then
          match rest₂ with
          | d :: _ =>
            if d.isDigit then
              (acc ++ e :: s :: rest₂.takeWhile Char.isDigit, rest₂.dropWhile Char.isDigit)
            else (acc, e :: rest)
          | [] => (acc, e :: rest)
        else if s.isDigit then
          (acc ++ e :: rest.takeWhile Char.isDigit, rest.dropWhile Char.isDigit)
        else (acc, e :: rest)
      | [] => (acc, e :: rest)
    else (acc, e :: rest)
  | [] => (acc, r)

/-- Fractional and exponent tail of the CPython number regex, munched after
the integer part acc. -/
def numTail (acc : List Char) (r : List Char) : List Char × List Char :=
  expPart (fracPart acc r).1 (fracPart acc r).2

/-- Integer part (0|[1-9]\d*) of the CPython number regex after an optional
sign, followed by the fractional/exponent tail. -/
def parseNumBody (sign : List Char) : List Char → Except String (List Char × List Char)
  | '0' :: r => .ok (numTail (sign ++ ['0']) r)
  | c :: r =>
    if c.isDigit then
      .ok (numTail (sign ++ (c :: r).takeWhile Char.isDigit) ((c :: r).dropWhile Char.isDigit))
    else .error "Expecting value"
  | [] => .error "Expecting value"

/-- The CPython number regex -?(0|[1-9]\d*)(\.\d+)?([eE][-+]?\d+)?, munched
at the head of the input; returns the lexeme and the remainder, or fails if
the regex does not match at position 0. -/
def parseNum : List Char → Except String (List Char × List Char)
  | '-' :: r => parseNumBody ['-'] r
  | cs => parseNumBody [] cs

/-- Remainder of the input after a literal prefix, when the prefix is
there. -/
def stripPre : List Char → List Char → Option (List Char)
  | [], s => some s
  | _ :: _, [] => none
  | p :: ps, x :: xs => if p = x then stripPre ps xs else none

mutual

/-- One json value at the head of the input (no leading whitespace skipped),
mirroring CPython's _scan_once: dispatch on the head character; keyword
prefixes (null/true/false and the non-regex NaN/Infinity constants) via
stripPre; numbers via the number regex, which is tried before -Infinity
exactly as in the CPython scanner.  The fuel argument only bounds recursion
depth; every recursive call consumes at least one character, so any fuel
above the input length behaves identically. -/
def parseValue : Nat → List Char → Except String (Json × List Char)
  | 0, _ => .error "Depth exhausted"
  | f + 1, cs =>
    match cs with
    | [] => .error "Expecting value"
    | c :: r =>
      if c = '"' then
        match parseStrF f r with
        | .ok (b, rest) => .ok (.str (String.mk b), rest)
        | .error m => .error m
      else if c = '\x7b' then
        match skipWs r with
        | '\x7d' :: rest => .ok (.obj [], rest)
        | '"' :: r₂ =>
          match parseMembers f r₂ with
          | .ok (kvs, rest) => .ok (.obj kvs, rest)
          | .error m => .error m
        | _ => .error "Expecting property name enclosed in double quotes"
      else if c = '[' then
        match skipWs r with
        | ']' :: rest => .ok (.arr [], rest)
        | t =>
          match parseElements f t with
          | .ok (vs, rest) => .ok (.arr vs, rest)
          | .error m => .error m
      else if c = 'n' then
        match stripPre "ull".data r with
        | some rest => .ok (.null, rest)
        | none => .error "Expecting value"
      else if c = 't' then
        match stripPre "rue".data r with
        | some rest => .ok (.bool true, rest)
        | none => .error "Expecting value"
      else if c = 'f' then
        match stripPre "alse".data r with
        | some rest => .ok (.bool false, rest)
        | none => .error "Expecting value"
      else if c = 'N' then
        match stripPre "aN".data r with
        | some rest => .ok (.num "NaN", rest)
        | none => .error "Expecting value"
      else if c = 'I' then
        match stripPre "nfinity".data r with
        | some rest => .ok (.num "Infinity", rest)
        | none => .error "Expecting value"
      else if c = '-' then
        match parseNum (c :: r) with
        | .ok (lex, rest) => .ok (.num (String.mk lex), rest)
        | .error _ =>
          match stripPre "Infinity".data r with
          | some rest => .ok (.num "-Infinity", rest)
          | none => .error "Expecting value"
      else
        match parseNum (c :: r) with
        | .ok (lex, rest) => .ok (.num (String.mk lex), rest)
        | .error m => .error m

/-- Members of a json object, positioned right after the opening quote of a
key.  Mirrors CPython's JSONObject loop: key string, colon, value, then
either a comma and the next key (whitespace-separated) or the closing
brace. -/
def parseMembers : Nat → List Char → Except String (List (String × Json) × List Char)
  | 0, _ => .error "Depth exhausted"
  | f + 1, cs =>
    match parseStrF f cs with
    | .error m => .error m
    | .ok (k, r₁) =>
      match skipWs r₁ with
      | ':' :: r₂ =>
        match parseValue f (skipWs r₂) with
        | .error m => .error m
        | .ok (v, r₃) =>
          match skipWs r₃ with
          | ',' :: r₄ =>
            match skipWs r₄ with
            | '"' :: r₅ =>
              match parseMembers f r₅ with
              | .ok (kvs, rest) => .ok ((String.mk k, v) :: kvs, rest)
              | .error m => .error m
            | _ => .error "Expecting property name enclosed in double quotes"
          | '\x7d' :: rest => .ok ([(String.mk k, v)], rest)
          | _ => .error "Expecting comma delimiter"
      | _ => .error "Expecting colon delimiter"

/-- Elements of a json array, positioned at the first element (whitespace
already skipped).  Mirrors CPython's JSONArray loop. -/
def parseElements : Nat → List Char → Except String (List Json × List Char)
  | 0, _ => .error "Depth exhausted"
  | f + 1, cs =>
    match parseValue f cs with
    | .error m => .error m
    | .ok (v, r₁) =>
      match skipWs r₁ with
      | ',' :: r₂ =>
        match parseElements f (skipWs r₂) with
        | .ok (vs, rest) => .ok (v :: vs, rest)
        | .error m => .error m
      | ']' :: rest => .ok ([v], rest)
      | _ => .error "Expecting comma delimiter"

end

/-- Python json.loads: skip whitespace, parse one value, require only
whitespace to remain. -/
def loads (cs : List Char) : Except String Json :=
  match parseValue (cs.length + 1) (skipWs cs) with
  | .error m => .error m
  | .ok (v, rest) => if skipWs rest = [] then .ok v else .error "Extra data"

/-- A boundary is good when its first character (if any) cannot extend a
number token: under a good boundary the parser's munch of the prefix does not
depend on what the boundary is, which is what lets a parsed span be cut out
and reparsed. -/
def goodBoundary (r : List Char) : Prop :=
  ∀ c, r.head? = some c → extChar c = false

/-! ## The parse-and-repair stage of categorize_keywords_with_gpt52
(src/openai_client.py lines 154-216) -/

/-- Slice response text to its first-open-brace .. last-close-brace span when
such a span exists in the right order; otherwise keep the whole text
(openai_client.py lines 158-165). -/
def jsonTextOf (rt : List Char) : List Char :=
  match findIdxCh '\x7b' rt, rfindIdxCh '\x7d' rt with
  | some s, some e => if s < e then sliceTo rt s e else rt
  | some _, none => rt
  | none, _ => rt

/-- Single quote character. -/
def squote : Char := '\''

/-- The fixed substitution sequence of lines 176-179: single quotes to double
quotes, then the Python literals None/True/False to their json forms. -/
def fixCommon (s : List Char) : List Char :=
  replaceAll "False".data "false".data
    (replaceAll "True".data "true".data
      (replaceAll "None".data "null".data
        (replaceAll [squote] ['"'] s)))

/-- Brace-balance repair of lines 182-186: append the deficit of closing
braces when opens exceed closes. -/
def braceFix (s : List Char) : List Char :=
  let ob := countCh '\x7b' s
  let cb := countCh '\x7d' s
  if cb < ob then s ++ List.replicate (ob - cb) '\x7d' else s

/-- The line-scoped extraction loop of lines 194-206: accumulate lines from
the first line containing an opening brace, tracking the running brace
balance, stopping at the first accumulated line where the balance is zero and
the line contains a closing brace. -/
def lineScan : List (List Char) → Bool → Int → List (List Char)
  | [], _, _ => []
  | l :: ls, started, bc =>
    let started' := started || l.contains '\x7b'
    if started' then
      let bc' := bc + (countCh '\x7b' l : Int) - (countCh '\x7d' l : Int)
      if bc' == 0 && l.contains '\x7d' then [l]
      else l :: lineScan ls started' bc'
    else lineScan ls started' bc

/-- json_text_final of line 208. -/
def jsonLinesOf (s : List Char) : List Char :=
  joinNl (lineScan (splitNl s) false 0)

/-- The last-resort error message of lines 214-216 (the parse-failure detail
e2 is this model's parser message; the Python text interpolates the
JSONDecodeError there). -/
def repairErrMsg (e2 : String) (rt : List Char) : String :=
  String.mk ("Failed to parse JSON response from GPT-5.2. Error: ".data ++ e2.data ++
    ". Response preview: ".data ++ rt.take 300 ++ "...".data)

/-- The parse-and-repair stage: strip, slice to the brace span, then try
direct parse, substitution + brace-balance repair, and line-scoped
extraction, falling back to the single-field error record. -/
def repairL (raw : List Char) : Json :=
  let rt := pyStripL raw
  let jt := jsonTextOf rt
  match loads jt with
  | .ok v => v
  | .error _ =>
    let fixed := braceFix (fixCommon jt)
    match loads fixed with
    | .ok v => v
    | .error e2 =>
      match loads (jsonLinesOf fixed) with
      | .ok v => v
      | .error _ => Json.obj [("error", Json.str (repairErrMsg e2 rt))]

/-- The repairer on String input. -/
def repair (s : String) : Json := repairL s.data

/-- The ordered list of parse attempts the repairer makes, as pure values:
direct parse of the sliced text, parse of the substituted and brace-repaired
text, parse of the line-scoped extraction. -/
def repairAttempts (raw : List Char) : List (Except String Json) :=
  let jt := jsonTextOf (pyStripL raw)
  let fixed := braceFix (fixCommon jt)
  [loads jt, loads fixed, loads (jsonLinesOf fixed)]

/-- First successful attempt, if any: the ordered-fallback description of the
repairer against which the nested try/except structure is checked. -/
def firstSuccessOf (raw : List Char) : Option Json :=
  (repairAttempts raw).foldr
    (fun a acc => match a with | .ok v => some v | .error _ => acc) none

/-! ## categorize_keywords_with_gpt52 (src/openai_client.py lines 19-221)

The OpenAI call plus response-text extraction (lines 53-152) is the llm
capability parameter: given the developer prompt and the user message it
either produces the response text or fails with the exception text; a
failure anywhere in that region is caught by the outer handler at lines
218-221. -/

/-- The validation-failure record of lines 37-42. -/
def missingInputRecord : Json :=
  Json.obj [("error",
    Json.str "Blog text and/or keyword data missing. Please provide the necessary inputs.")]

/-- The user message f-string of lines 45-51. -/
def userMessageOf (blog_content csv_content : String) : String :=
  String.mk ("Blog Content:\n".data ++ blog_content.data ++
    "\n\nKeyword Data (CSV):\n".data ++ csv_content.data ++
    "\n\nPlease analyze the blog content and keyword data, then return the categorized keywords in the specified JSON format.".data)

/-- categorize_keywords_with_gpt52: validate inputs, call the model, repair
the response. -/
def categorize_keywords_with_gpt52 (llm : String → String → Except String String)
    (blog_content csv_content developer_prompt : String) : Json :=
  if blog_content.data = [] ∨ pyStripL blog_content.data = [] then missingInputRecord
  else if csv_content.data = [] ∨ pyStripL csv_content.data = [] then missingInputRecord
  else
    match llm developer_prompt (userMessageOf blog_content csv_content) with
    | .error e => Json.obj [("error", Json.str ("Error calling OpenAI API: " ++ e))]
    | .ok response_text => repairL response_text.data

/-! ## Geo-target resolution (src/geo_targets.py)

A suggestion carries the target_type string (the proto enum name) and the
resource name.  The suggestion service is the query parameter; a Python
exception from the service (GoogleAdsException or any other) is its error
case.  The cache dict is an insertion-ordered association list. -/

structure GeoTarget where
  target_type : String
  resource_name : String
deriving Repr, DecidableEq

/-- Python dict key lookup. -/
def lookupC : List (String × String) → String → Option String
  | [], _ => none
  | (k, v) :: rest, n => if k = n then some v else lookupC rest n

/-- Python dict assignment d[k] = v: overwrite in place, else append. -/
def setKey : List (String × String) → String → String → List (String × String)
  | [], k, v => [(k, v)]
  | (k', v') :: rest, k, v =>
    if k' = k then (k, v) :: rest else (k', v') :: setKey rest k v

/-- First suggestion satisfying p, in service order (the for loops of
geo_targets.py lines 60-85). -/
def firstMatch (p : GeoTarget → Bool) : List GeoTarget → Option GeoTarget
  | [] => none
  | g :: gs => if p g then some g else firstMatch p gs

/-- The COUNTRY test of line 68: equality or substring containment. -/
def isCountryT (t : String) : Bool :=
  t = "COUNTRY" || hasSub "COUNTRY".data t.data

/-- The PROVINCE test of line 82: equality or substring containment. -/
def isProvinceT (t : String) : Bool :=
  t = "PROVINCE" || hasSub "PROVINCE".data t.data

/-- The tie-break scan of lines 57-93: first COUNTRY-typed suggestion, else
first PROVINCE-typed suggestion, else the first suggestion; none when the
service returned no suggestions.  Each successful branch in the source
writes the cache and returns the resource name; the choice is factored out
here and the caller performs the shared write. -/
def pickSuggestion : List GeoTarget → Option String
  | [] => none
  | g₀ :: gs =>
    match firstMatch (fun g => isCountryT g.target_type) (g₀ :: gs) with
    | some g => some g.resource_name
    | none =>
      match firstMatch (fun g => isProvinceT g.target_type) (g₀ :: gs) with
      | some g => some g.resource_name
      | none => some g₀.resource_name

/-- resolve_country_to_geo_target: cached value if present; otherwise query,
pick by the tie-break policy and cache the result; None (with the cache
unchanged) when the query raises or returns no suggestions. -/
def resolve_country_to_geo_target (query : String → Except String (List GeoTarget))
    (country_name : String) (cache : List (String × String)) :
    Option String × List (String × String) :=
  match lookupC cache country_name with
  | some v => (some v, cache)
  | none =>
    match query country_name with
    | .error _ => (none, cache)
    | .ok sugs =>
      match pickSuggestion sugs with
      | some rn => (some rn, setKey cache country_name rn)
      | none => (none, cache)

/-- What a cache-missing name resolves to: the pure per-name outcome. -/
def freshResolve (query : String → Except String (List GeoTarget)) (n : String) :
    Option String :=
  match query n with
  | .error _ => none
  | .ok sugs => pickSuggestion sugs

/-- resolve_countries (lines 108-126): fold the per-name resolver over the
input, appending truthy results in order; the loaded cache is the second
argument and the cache passed to save_cache is the second component of the
result.  Python appends only truthy values, so None and the empty string are
both dropped from the output list. -/
def resolve_countries (query : String → Except String (List GeoTarget)) :
    List String → List (String × String) → List String × List (String × String)
  | [], cache => ([], cache)
  | n :: rest, cache =>
    let r := resolve_country_to_geo_target query n cache
    let t := resolve_countries query rest r.2
    match r.1 with
    | some id => if id = "" then t else (id :: t.1, t.2)
    | none => t

/-- resolve_countries instrumented with the list of names actually sent to
the external service (a name is queried exactly when it misses the cache at
its turn); third component is that trace in query order. -/
def resolveCountriesT (query : String → Except String (List GeoTarget)) :
    List String → List (String × String) →
    List String × List (String × String) × List String
  | [], cache => ([], cache, [])
  | n :: rest, cache =>
    let queried := (lookupC cache n).isNone
    let r := resolve_country_to_geo_target query n cache
    let t := resolveCountriesT query rest r.2
    let outs :=
      match r.1 with
      | some id => if id = "" then t.1 else id :: t.1
      | none => t.1
    (outs, t.2.1, if queried then n :: t.2.2 else t.2.2)

/-- The cache-or-fresh value of one name against the initial cache. -/
def cachedOrFresh (query : String → Except String (List GeoTarget))
    (cache₀ : List (String × String)) (n : String) : Option String :=
  match lookupC cache₀ n with
  | some v => some v
  | none => freshResolve query n

/-- The per-occurrence contribution of a name to the output list of
resolve_countries: its cache-or-fresh value unless that value is falsy. -/
def emitPure (query : String → Except String (List GeoTarget))
    (cache₀ : List (String × String)) (n : String) : Option String :=
  match cachedOrFresh query cache₀ n with
  | some v => if v = "" then none else some v
  | none => none

/-- Concrete suggestion services for closed instances. -/
def canadaGT : GeoTarget := ⟨"COUNTRY", "geoTargetConstants/2124"⟩

def canadaQuery : String → Except String (List GeoTarget) := fun _ => .ok [canadaGT]

def emptyQuery : String → Except String (List GeoTarget) := fun _ => .ok []

def failQuery : String → Except String (List GeoTarget) := fun _ => .error "API error"

def mixedSugs : List GeoTarget :=
  [⟨"CITY", "geoTargetConstants/1001"⟩,
   ⟨"PROVINCE", "geoTargetConstants/1002"⟩,
   ⟨"COUNTRY", "geoTargetConstants/1003"⟩]

def mixedQuery : String → Except String (List GeoTarget) := fun _ => .ok mixedSugs

/-! ## generate_keyword_ideas validation (src/google_ads_client.py lines
32-262)

The network call (line 147) and the response post-processing are the service
parameter; everything before it is translated below.  All raised ValueErrors
travel through the generic handler of lines 259-262, which prepends the
Google Ads API error prefix.  The GoogleAdsException-specific enrichment of
lines 184-258 concerns only remote failures and is abstracted into the same
wrapper; no claim constrains it.  urllib.parse.urlparse is modelled for
scheme/netloc/path (params and the bracket-validation of netloc are not
modelled; no claim depends on them). -/

/-- Truthiness filter of line 65: non-empty and non-whitespace. -/
def validGT (gt : String) : Bool :=
  !gt.data.isEmpty && !(pyStripL gt.data).isEmpty

/-- dict.fromkeys de-duplication of line 70: keep first occurrences in
order. -/
def dedupAux (seen : List String) : List String → List String
  | [] => []
  | x :: xs => if seen.contains x then dedupAux seen xs else x :: dedupAux (x :: seen) xs

/-- Order-preserving de-duplication. -/
def dedupKeys (xs : List String) : List String := dedupAux [] xs

/-- Format validation of line 76 (applied to the stripped target). -/
def fmtOkGT (g : String) : Bool :=
  startsWithL "geoTargetConstants/".data g.data && 20 < g.length

/-- Lines 64-79: filter truthy, de-duplicate, strip each and keep those in
resource-name format. -/
def validatedGTs (gts : List String) : List String :=
  ((dedupKeys (gts.filter validGT)).map pyStripS).filter fmtOkGT

/-- Scheme characters per urllib.parse. -/
def isSchemeChar (c : Char) : Bool :=
  c.isAlphanum || c = '+' || c = '-' || c = '.'

/-- Modelled from the Python standard library urlsplit: strip a valid scheme
prefix (first colon, preceded by an ASCII-letter-led run of scheme
characters). -/
def afterScheme (s : List Char) : List Char :=
  match findIdxCh ':' s with
  | some i =>
    if i != 0 && (s.take i).all isSchemeChar &&
        (match s.head? with | some c => c.isAlpha | none => false) then
      s.drop (i + 1)
    else s
  | none => s

/-- Character ends a netloc. -/
def notNPQ (c : Char) : Bool := !(c = '/' || c = '?' || c = '#')

/-- Modelled from urlsplit: netloc (after a leading double slash, up to the
first slash, question mark or hash) and the remainder. -/
def urlNetloc (s : List Char) : List Char × List Char :=
  let rest := afterScheme s
  if startsWithL "//".data rest then
    let r := rest.drop 2
    (r.takeWhile notNPQ, r.dropWhile notNPQ)
  else ([], rest)

/-- Characters before the first occurrence of c. -/
def takeBefore (c : Char) (s : List Char) : List Char :=
  s.takeWhile (fun x => !(x = c))

/-- Modelled from urlsplit: the path is the remainder with fragment and query
split off. -/
def urlPath (rest : List Char) : List Char :=
  takeBefore '?' (takeBefore '#' rest)

/-- Python str.strip of slash characters. -/
def stripSlashes (s : List Char) : List Char :=
  dropTrail (fun c => c = '/') (s.dropWhile (fun c => c = '/'))

/-- Lines 109-111: netloc or path stripped of slashes. -/
def urlDomain (website_url : String) : String :=
  let np := urlNetloc website_url.data
  if np.1.isEmpty then String.mk (stripSlashes (urlPath np.2)) else String.mk np.1

/-- The request finally handed to the keyword-idea service. -/
structure GKIRequest where
  customer_id : String
  language : String
  geo_target_constants : List String
  url_seed : String
deriving Repr, DecidableEq

/-- The generic exception wrapper of lines 259-262. -/
def wrapGkiError (e : String) : String := "Google Ads API error: " ++ e

/-- Lines 125-132: prepend https when the URL carries no protocol. -/
def ensureProtocol (url : String) : String :=
  if startsWithL "http://".data url.data || startsWithL "https://".data url.data then url
  else String.mk ("https://".data ++ url.data)

/-- Line 95: remove dashes from the customer id. -/
def cleanCustomerId (cid : String) : String :=
  String.mk (replaceAll ['-'] [] cid.data)

/-- generate_keyword_ideas up to and around the network call: the validation
chain of lines 56-144 in source order, then the service call with the built
request; service outcomes pass through the exception wrapper. -/
def generate_keyword_ideas {α : Type} (service : GKIRequest → Except String α)
    (customer_id website_url : String) (geo_target_constants : List String)
    (language_id : String) : Except String α :=
  if customer_id = "" then .error (wrapGkiError "Customer ID is required")
  else if geo_target_constants = [] then
    .error (wrapGkiError "At least one geo target constant is required")
  else if geo_target_constants.filter validGT = [] then
    .error (wrapGkiError "No valid geo target constants found")
  else if validatedGTs geo_target_constants = [] then
    .error (wrapGkiError "No valid geo target constants found after validation")
  else
    let capped := (validatedGTs geo_target_constants).take 10
    if urlDomain website_url = "" then
      .error (wrapGkiError ("Invalid website URL: " ++ website_url))
    else
      match service ⟨cleanCustomerId customer_id, "languageConstants/" ++ language_id,
          capped, ensureProtocol website_url⟩ with
      | .ok r => .ok r
      | .error e => .error (wrapGkiError e)

/-- A service that never fails, for closed instances. -/
def unitService : GKIRequest → Except String Unit := fun _ => .ok ()

/-! ## Resolver lemmas -/

/-- The priority loops are first-match scans. -/
theorem firstMatch_eq_find (p : GeoTarget → Bool) (l : List GeoTarget) :
    firstMatch p l = l.find? p := by
  induction l with
  | nil => rfl
  | cons g gs ih =>
    simp only [firstMatch, List.find?]
    cases h : p g <;> simp [h, ih]

/-- Freshly set keys are found. -/
theorem lookupC_setKey_self (c : List (String × String)) (k v : String) :
    lookupC (setKey c k v) k = some v := by
  induction c with
  | nil => simp [setKey, lookupC]
  | cons kv rest ih =>
    by_cases h : kv.1 = k <;> simp [setKey, lookupC, h, ih]

/-- Setting one key leaves other lookups unchanged. -/
theorem lookupC_setKey_other (c : List (String × String)) (k v n : String)
    (h : n ≠ k) : lookupC (setKey c k v) n = lookupC c n := by
  induction c with
  | nil => simp [setKey, lookupC, Ne.symm h]
  | cons kv rest ih =>
    by_cases hk : kv.1 = k
    · simp [setKey, lookupC, hk, h, Ne.symm h]
    · simp [setKey, lookupC, hk, ih]

/-- Cache hit: return the cached value, cache untouched. -/
theorem resolve_one_hit (query : String → Except String (List GeoTarget))
    (n : String) (cache : List (String × String)) (v : String)
    (h : lookupC cache n = some v) :
    resolve_country_to_geo_target query n cache = (some v, cache) := by
  simp [resolve_country_to_geo_target, h]

/-- Cache miss: the result is the pure per-name outcome, cached when
successful. -/
theorem resolve_one_miss (query : String → Except String (List GeoTarget))
    (n : String) (cache : List (String × String))
    (h : lookupC cache n = none) :
    resolve_country_to_geo_target query n cache =
      (freshResolve query n,
        match freshResolve query n with
        | some v => setKey cache n v
        | none => cache) := by
  simp only [resolve_country_to_geo_target, freshResolve, h]
  cases hq : query n with
  | error e => rfl
  | ok sugs => cases hp : pickSuggestion sugs <;> simp [hp]

/-- Per-name resolution never removes cache entries. -/
theorem lookupC_resolve_one_mono (query : String → Except String (List GeoTarget))
    (m : String) (cache : List (String × String)) (n v : String)
    (h : lookupC cache n = some v) :
    lookupC (resolve_country_to_geo_target query m cache).2 n = some v := by
  cases hm : lookupC cache m with
  | some w => rw [resolve_one_hit query m cache w hm]; exact h
  | none =>
    rw [resolve_one_miss query m cache hm]
    cases hf : freshResolve query m with
    | none => exact h
    | some w =>
      have hnm : n ≠ m := fun he => by rw [he, hm] at h; exact Option.noConfusion h
      simpa [lookupC_setKey_other cache m w n hnm] using h

/-- One unfolding step of resolve_countries. -/
theorem resolve_countries_cons (query : String → Except String (List GeoTarget))
    (m : String) (rest : List String) (c : List (String × String)) :
    resolve_countries query (m :: rest) c =
      (let r := resolve_country_to_geo_target query m c
       let t := resolve_countries query rest r.2
       match r.1 with
       | some id => if id = "" then t else (id :: t.1, t.2)
       | none => t) := rfl

/-- The final cache only depends on the per-step cache updates. -/
theorem resolve_countries_snd (query : String → Except String (List GeoTarget))
    (m : String) (rest : List String) (c : List (String × String)) :
    (resolve_countries query (m :: rest) c).2 =
      (resolve_countries query rest (resolve_country_to_geo_target query m c).2).2 := by
  rw [resolve_countries_cons]
  cases h : (resolve_country_to_geo_target query m c).1 with
  | none => simp [h]
  | some id => by_cases hid : id = "" <;> simp [h, hid]

/-- Claim C2: among a non-empty candidate list the resolver selects the first
country-typed candidate, else the first province-typed candidate, else the
first candidate regardless of type (resolve_country_to_geo_target, cache
miss, successful query). -/
theorem c2_tie_break (query : String → Except String (List GeoTarget))
    (country_name : String) (cache : List (String × String))
    (sugs : List GeoTarget) (g₀ : GeoTarget) (gs : List GeoTarget)
    (hc : lookupC cache country_name = none)
    (hq : query country_name = .ok sugs)
    (hs : sugs = g₀ :: gs) :
    (resolve_country_to_geo_target query country_name cache).1 =
      some (match sugs.find? (fun g => isCountryT g.target_type) with
        | some g => g.resource_name
        | none =>
          match sugs.find? (fun g => isProvinceT g.target_type) with
          | some g => g.resource_name
          | none => g₀.resource_name) := by
  subst hs
  simp only [resolve_country_to_geo_target, hc, hq]
  simp only [pickSuggestion, firstMatch_eq_find]
  cases hf1 : (g₀ :: gs).find? (fun g => isCountryT g.target_type) with
  | some g => simp [hf1]
  | none =>
    cases hf2 : (g₀ :: gs).find? (fun g => isProvinceT g.target_type) with
    | some g => simp [hf1, hf2]
    | none => simp [hf1, hf2]

/-- Witness for C2 at a mixed candidate list: the COUNTRY-typed third
candidate wins over the earlier CITY- and PROVINCE-typed ones. -/
theorem c2_witness :
    (resolve_country_to_geo_target mixedQuery "X" []).1 =
      some "geoTargetConstants/1003" :=
  (c2_tie_break mixedQuery "X" [] mixedSugs
    ⟨"CITY", "geoTargetConstants/1001"⟩
    [⟨"PROVINCE", "geoTargetConstants/1002"⟩, ⟨"COUNTRY", "geoTargetConstants/1003"⟩]
    rfl rfl rfl).trans (by rfl)

/-- Claim C3 counterexample: with Canada resolvable, the input list
[Canada, Canada] yields the same identifier twice — resolve_countries does
not remove duplicates from its output. -/
theorem c3_counterexample :
    (resolve_countries canadaQuery ["Canada", "Canada"] []).1 =
      ["geoTargetConstants/2124", "geoTargetConstants/2124"] ∧
    (resolve_countries canadaQuery ["Canada", "Canada"] []).1.count
      "geoTargetConstants/2124" = 2 :=
  ⟨rfl, rfl⟩

/-- Output characterisation of resolve_countries, generalised over an evolved
cache that (a) extends the initial cache and (b) only holds values consistent
with cache-or-fresh resolution against the initial cache. -/
theorem resolve_countries_fst_aux (query : String → Except String (List GeoTarget))
    (cache₀ : List (String × String)) :
    ∀ (names : List String) (c : List (String × String)),
    (∀ n v, lookupC cache₀ n = some v → lookupC c n = some v) →
    (∀ n v, lookupC c n = some v → cachedOrFresh query cache₀ n = some v) →
    (resolve_countries query names c).1 = names.filterMap (emitPure query cache₀) := by
  intro names
  induction names with
  | nil => intro c _ _; rfl
  | cons m rest ih =>
    intro c h1 h2
    rw [resolve_countries_cons, List.filterMap_cons]
    cases hcm : lookupC c m with
    | some v =>
      have hm : cachedOrFresh query cache₀ m = some v := h2 m v hcm
      have he : emitPure query cache₀ m = if v = "" then none else some v := by
        simp [emitPure, hm]
      rw [resolve_one_hit query m c v hcm]
      by_cases hv : v = "" <;>
        simp [he, hv, ih c h1 h2]
    | none =>
      have hcm₀ : lookupC cache₀ m = none := by
        cases hm₀ : lookupC cache₀ m with
        | none => rfl
        | some w =>
          rw [h1 m w hm₀] at hcm
          exact Option.noConfusion hcm
      have hm : cachedOrFresh query cache₀ m = freshResolve query m := by
        simp [cachedOrFresh, hcm₀]
      rw [resolve_one_miss query m c hcm]
      cases hf : freshResolve query m with
      | none =>
        have he : emitPure query cache₀ m = none := by simp [emitPure, hm, hf]
        simp [hf, he, ih c h1 h2]
      | some w =>
        have he : emitPure query cache₀ m = if w = "" then none else some w := by
          simp [emitPure, hm, hf]
        have h1' : ∀ n v, lookupC cache₀ n = some v → lookupC (setKey c m w) n = some v := by
          intro n v hv
          have hnm : n ≠ m := fun he' => by
            rw [he', hcm₀] at hv; exact Option.noConfusion hv
          rw [lookupC_setKey_other c m w n hnm]
          exact h1 n v hv
        have h2' : ∀ n v, lookupC (setKey c m w) n = some v →
            cachedOrFresh query cache₀ n = some v := by
          intro n v hv
          by_cases hnm : n = m
          · subst hnm
            rw [lookupC_setKey_self] at hv
            rw [hm, hf]
            exact hv.symm ▸ rfl
          · rw [lookupC_setKey_other c m w n hnm] at hv
            exact h2 n v hv
        by_cases hw : w = ""
        · subst hw
          simp [hf, he, ih (setKey c m "") h1' h2']
        · simp [hf, he, hw, ih (setKey c m w) h1' h2']

/-- Claim C3 (amended): resolve_countries returns, in input order, the
identifier of every occurrence of a resolvable name (its cached value if
present in the loaded cache, else the fresh pick), silently dropping
unresolvable names and falsy identifiers; duplicate occurrences are not
collapsed. -/
theorem c3_ordered_outputs (query : String → Except String (List GeoTarget))
    (names : List String) (cache₀ : List (String × String)) :
    (resolve_countries query names cache₀).1 =
      names.filterMap (emitPure query cache₀) :=
  resolve_countries_fst_aux query cache₀ names cache₀
    (fun _ _ h => h) (fun n v h => by simp [cachedOrFresh, h])

/-- Claim C4: after a batch, a cache lookup returns exactly the pre-existing
entry when one existed, else the fresh resolution of the name when the name
was in the batch and resolved, else nothing — the persisted cache is the
union of the pre-existing cache and the newly resolved pairs, and failed
names never appear. -/
theorem c4_cache_union (query : String → Except String (List GeoTarget))
    (names : List String) (cache₀ : List (String × String)) (n : String) :
    lookupC (resolve_countries query names cache₀).2 n =
      (match lookupC cache₀ n with
       | some v => some v
       | none => if n ∈ names then freshResolve query n else none) := by
  induction names generalizing cache₀ with
  | nil =>
    cases h : lookupC cache₀ n <;> simp [resolve_countries, h]
  | cons m rest ih =>
    rw [resolve_countries_snd]
    cases hcm : lookupC cache₀ m with
    | some w =>
      rw [resolve_one_hit query m cache₀ w hcm, ih cache₀]
      cases hn : lookupC cache₀ n with
      | some v => rfl
      | none =>
        have hnm : n ≠ m := fun he => by
          rw [he, hcm] at hn; exact Option.noConfusion hn
        simp [List.mem_cons, hnm]
    | none =>
      rw [resolve_one_miss query m cache₀ hcm]
      cases hf : freshResolve query m with
      | none =>
        rw [ih cache₀]
        cases hn : lookupC cache₀ n with
        | some v => rfl
        | none =>
          by_cases hnm : n = m
          · subst hnm
            simp [List.mem_cons, hf]
          · simp [List.mem_cons, hnm]
      | some w =>
        rw [ih (setKey cache₀ m w)]
        by_cases hnm : n = m
        · subst hnm
          simp [lookupC_setKey_self, hcm, List.mem_cons, hf]
        · rw [lookupC_setKey_other cache₀ m w n hnm]
          cases hn : lookupC cache₀ n with
          | some v => rfl
          | none => simp [List.mem_cons, hnm]

/-- One unfolding step of the instrumented resolver. -/
theorem resolveCountriesT_cons (query : String → Except String (List GeoTarget))
    (m : String) (rest : List String) (c : List (String × String)) :
    resolveCountriesT query (m :: rest) c =
      (let r := resolve_country_to_geo_target query m c
       let t := resolveCountriesT query rest r.2
       let outs :=
         match r.1 with
         | some id => if id = "" then t.1 else id :: t.1
         | none => t.1
       (outs, t.2.1,
        if (lookupC c m).isNone then m :: t.2.2 else t.2.2)) := rfl

/-- The query trace of one step: the head name exactly when it missed the
cache, followed by the trace of the remaining batch against the updated
cache. -/
theorem traceT_cons (query : String → Except String (List GeoTarget))
    (m : String) (rest : List String) (c : List (String × String)) :
    (resolveCountriesT query (m :: rest) c).2.2 =
      (if (lookupC c m).isNone then [m] else []) ++
        (resolveCountriesT query rest
          (resolve_country_to_geo_target query m c).2).2.2 := by
  rw [resolveCountriesT_cons]
  by_cases h : (lookupC c m).isNone <;> simp [h]

/-- Names present in the cache are never queried. -/
theorem traceT_cached_not_mem (query : String → Except String (List GeoTarget)) :
    ∀ (names : List String) (c : List (String × String)) (n v : String),
      lookupC c n = some v → n ∉ (resolveCountriesT query names c).2.2 := by
  intro names
  induction names with
  | nil => intro c n v h; simp [resolveCountriesT]
  | cons m rest ih =>
    intro c n v h
    rw [traceT_cons]
    intro hmem
    rcases List.mem_append.mp hmem with h1 | h2
    · by_cases hq : (lookupC c m).isNone
      · simp [hq] at h1
        subst h1
        simp [h] at hq
      · simp [hq] at h1
    · exact ih _ n v (lookupC_resolve_one_mono query m c n v h) h2

/-- A name whose fresh resolution succeeds is queried at most once: zero
times when it is already cached, once otherwise (after which it is cached
for all later occurrences). -/
theorem traceT_count_aux (query : String → Except String (List GeoTarget))
    (n w : String) (hf : freshResolve query n = some w) :
    ∀ (names : List String) (c : List (String × String)),
      (resolveCountriesT query names c).2.2.count n ≤
        (if (lookupC c n).isNone then 1 else 0) := by
  intro names
  induction names with
  | nil => intro c; simp [resolveCountriesT]
  | cons m rest ih =>
    intro c
    rw [traceT_cons, List.count_append]
    by_cases hnm : n = m
    · subst hnm
      cases hc : lookupC c n with
      | some v =>
        rw [resolve_one_hit query n c v hc]
        have hrec := ih c
        simp [hc] at hrec ⊢
        omega
      | none =>
        rw [resolve_one_miss query n c hc, hf]
        have hrec := ih (setKey c n w)
        simp [lookupC_setKey_self] at hrec
        simp [hc, hrec]
    · have hheadn : ((if (lookupC c m).isNone then [m] else []) : List String).count n = 0 := by
        by_cases hq : (lookupC c m).isNone <;>
          simp [hq, List.count_cons, hnm]
      rw [hheadn]
      cases hc : lookupC c n with
      | some v =>
        have hmono := lookupC_resolve_one_mono query m c n v hc
        have hrec := ih (resolve_country_to_geo_target query m c).2
        simp [hmono, hc] at hrec ⊢
        omega
      | none =>
        have hrec := ih (resolve_country_to_geo_target query m c).2
        simp [hc]
        by_cases hq : (lookupC (resolve_country_to_geo_target query m c).2 n).isNone <;>
          simp [hq] at hrec <;> omega

/-- Claim C5 (amended): a name already present in the loaded cache produces
zero external calls and returns the cached value with the cache unchanged;
a name whose query resolves successfully is queried at most once however
often it occurs.  (A name whose query fails or returns no candidates is not
cached and is re-queried at each cache-missing occurrence, which is the
corrected part of the original claim.) -/
theorem c5_at_most_one_query (query : String → Except String (List GeoTarget))
    (names : List String) (c : List (String × String)) :
    (∀ n v, lookupC c n = some v →
        n ∉ (resolveCountriesT query names c).2.2 ∧
        resolve_country_to_geo_target query n c = (some v, c)) ∧
    (∀ n w, freshResolve query n = some w →
        (resolveCountriesT query names c).2.2.count n ≤ 1) := by
  constructor
  · intro n v h
    exact ⟨traceT_cached_not_mem query names c n v h, resolve_one_hit query n c v h⟩
  · intro n w hf
    have h := traceT_count_aux query n w hf names c
    by_cases hc : (lookupC c n).isNone <;> simp [hc] at h <;> omega

/-- Claim C5 counterexample: a name that the service cannot resolve is
queried once per occurrence — the batch [Fakeland, Fakeland] against an
empty cache sends two external queries for Fakeland, refuting at most once
per distinct input name. -/
theorem c5_counterexample :
    (resolveCountriesT emptyQuery ["Fakeland", "Fakeland"] []).2.2 =
      ["Fakeland", "Fakeland"] ∧
    (resolveCountriesT emptyQuery ["Fakeland", "Fakeland"] []).2.2.count "Fakeland" = 2 :=
  ⟨rfl, rfl⟩

/-- Witness for C5 at concrete inputs: a cached Canada is never queried and
resolves to its cached value unchanged; a duplicated fresh name with a
successful query is queried at most once. -/
theorem c5_witness :
    ((resolveCountriesT canadaQuery ["Canada", "Canada"]
        [("Canada", "geoTargetConstants/2124")]).2.2.count "Canada" = 0 ∧
      resolve_country_to_geo_target canadaQuery "Canada"
          [("Canada", "geoTargetConstants/2124")] =
        (some "geoTargetConstants/2124", [("Canada", "geoTargetConstants/2124")])) ∧
    (resolveCountriesT canadaQuery ["United States", "United States"] []).2.2.count
        "United States" ≤ 1 :=
  ⟨⟨List.count_eq_zero.mpr
      ((c5_at_most_one_query canadaQuery ["Canada", "Canada"]
        [("Canada", "geoTargetConstants/2124")]).1 "Canada" "geoTargetConstants/2124" rfl).1,
    ((c5_at_most_one_query canadaQuery ["Canada", "Canada"]
        [("Canada", "geoTargetConstants/2124")]).1 "Canada" "geoTargetConstants/2124" rfl).2⟩,
   (c5_at_most_one_query canadaQuery ["United States", "United States"] []).2
      "United States" "geoTargetConstants/2124" rfl⟩

/-- Claim C6: a name whose query raises or returns zero candidates records
nothing (result None, cache unchanged), the failure never escapes the
per-name resolver, and the rest of the batch resolves exactly as if the
failing name were absent. -/
theorem c6_per_name_failure_isolated (query : String → Except String (List GeoTarget)) :
    (∀ n cache e, lookupC cache n = none → query n = .error e →
        resolve_country_to_geo_target query n cache = (none, cache)) ∧
    (∀ n cache, lookupC cache n = none → query n = .ok [] →
        resolve_country_to_geo_target query n cache = (none, cache)) ∧
    (∀ bad rest cache, lookupC cache bad = none →
        (query bad = .ok [] ∨ ∃ e, query bad = .error e) →
        resolve_countries query (bad :: rest) cache =
          resolve_countries query rest cache) := by
  have hfr : ∀ n, (query n = .ok [] ∨ ∃ e, query n = .error e) →
      freshResolve query n = none := by
    intro n h
    rcases h with h | ⟨e, h⟩ <;> simp [freshResolve, h, pickSuggestion]
  have hfail : ∀ n cache, lookupC cache n = none →
      freshResolve query n = none →
      resolve_country_to_geo_target query n cache = (none, cache) := by
    intro n cache hc hf
    rw [resolve_one_miss query n cache hc, hf]
  refine ⟨?_, ?_, ?_⟩
  · intro n cache e hc hq
    exact hfail n cache hc (hfr n (Or.inr ⟨e, hq⟩))
  · intro n cache hc hq
    exact hfail n cache hc (hfr n (Or.inl hq))
  · intro bad rest cache hc hq
    have h1 := hfail bad cache hc (hfr bad hq)
    rw [resolve_countries_cons]
    simp [h1]

/-- Witness for C6: a raising query and an empty-candidate query both record
nothing, and a failing first name leaves the rest of the batch untouched. -/
theorem c6_witness :
    resolve_country_to_geo_target failQuery "Fakeland" [] = (none, []) ∧
    resolve_country_to_geo_target emptyQuery "Fakeland" [] = (none, []) ∧
    resolve_countries emptyQuery ["Fakeland", "Canada"]
        [("Canada", "geoTargetConstants/2124")] =
      resolve_countries emptyQuery ["Canada"] [("Canada", "geoTargetConstants/2124")] :=
  ⟨(c6_per_name_failure_isolated failQuery).1 "Fakeland" [] "API error" rfl rfl,
   (c6_per_name_failure_isolated emptyQuery).2.1 "Fakeland" [] rfl rfl,
   (c6_per_name_failure_isolated emptyQuery).2.2 "Fakeland" ["Canada"]
      [("Canada", "geoTargetConstants/2124")] rfl (Or.inl rfl)⟩

/-! ## generate_keyword_ideas validation theorems -/

/-- If the truthiness filter leaves nothing, the validated list is empty. -/
theorem validatedGTs_nil_of_filter (gts : List String)
    (h : gts.filter validGT = []) : validatedGTs gts = [] := by
  simp [validatedGTs, h, dedupKeys, dedupAux]

/-- Claim C9: a missing customer id, an absent/empty/unusable geo-target
list, and a website URL with no extractable domain each produce a distinct
descriptive failure, and they do so for every service whatsoever — the
result is independent of the service parameter, so no network call to the
keyword-idea service is involved in producing it. -/
theorem c9_fail_fast :
    (∀ (α : Type) (service : GKIRequest → Except String α) (url : String)
        (gts : List String) (lid : String),
        generate_keyword_ideas service "" url gts lid =
          .error (wrapGkiError "Customer ID is required")) ∧
    (∀ (α : Type) (service : GKIRequest → Except String α) (cid url lid : String),
        cid ≠ "" →
        generate_keyword_ideas service cid url [] lid =
          .error (wrapGkiError "At least one geo target constant is required")) ∧
    (∀ (α : Type) (service : GKIRequest → Except String α) (cid url lid : String)
        (gts : List String), cid ≠ "" → gts ≠ [] → gts.filter validGT = [] →
        generate_keyword_ideas service cid url gts lid =
          .error (wrapGkiError "No valid geo target constants found")) ∧
    (∀ (α : Type) (service : GKIRequest → Except String α) (cid url lid : String)
        (gts : List String), cid ≠ "" → gts.filter validGT ≠ [] →
        validatedGTs gts = [] →
        generate_keyword_ideas service cid url gts lid =
          .error (wrapGkiError "No valid geo target constants found after validation")) ∧
    (∀ (α : Type) (service : GKIRequest → Except String α) (cid url lid : String)
        (gts : List String), cid ≠ "" → validatedGTs gts ≠ [] → urlDomain url = "" →
        generate_keyword_ideas service cid url gts lid =
          .error (wrapGkiError ("Invalid website URL: " ++ url))) := by
  refine ⟨?_, ?_, ?_, ?_, ?_⟩
  · intro α service url gts lid
    simp [generate_keyword_ideas]
  · intro α service cid url lid hcid
    simp [generate_keyword_ideas, hcid]
  · intro α service cid url lid gts hcid hgts hfil
    simp [generate_keyword_ideas, hcid, hgts, hfil]
  · intro α service cid url lid gts hcid hfil hval
    have hgts : gts ≠ [] := by
      intro he
      subst he
      simp at hfil
    simp [generate_keyword_ideas, hcid, hgts, hfil, hval]
  · intro α service cid url lid gts hcid hval hdom
    have hfil : gts.filter validGT ≠ [] := by
      intro he
      exact hval (validatedGTs_nil_of_filter gts he)
    have hgts : gts ≠ [] := by
      intro he
      subst he
      exact hfil rfl
    simp [generate_keyword_ideas, hcid, hgts, hfil, hval, hdom]

/-- Witness for C9: each validation failure at a concrete input, with a
service that would succeed — the failure wins before the service matters. -/
theorem c9_witness :
    generate_keyword_ideas unitService "" "https://x.com"
        ["geoTargetConstants/2124"] "1000" =
      .error (wrapGkiError "Customer ID is required") ∧
    generate_keyword_ideas unitService "123" "https://x.com" [] "1000" =
      .error (wrapGkiError "At least one geo target constant is required") ∧
    generate_keyword_ideas unitService "123" "https://x.com" ["  "] "1000" =
      .error (wrapGkiError "No valid geo target constants found") ∧
    generate_keyword_ideas unitService "123" "https://x.com" ["bogus"] "1000" =
      .error (wrapGkiError "No valid geo target constants found after validation") ∧
    generate_keyword_ideas unitService "123" "https://"
        ["geoTargetConstants/2124"] "1000" =
      .error (wrapGkiError ("Invalid website URL: " ++ "https://")) :=
  ⟨c9_fail_fast.1 Unit unitService "https://x.com" ["geoTargetConstants/2124"] "1000",
   c9_fail_fast.2.1 Unit unitService "123" "https://x.com" "1000" (by decide),
   c9_fail_fast.2.2.1 Unit unitService "123" "https://x.com" "1000" ["  "]
     (by decide) (by decide) (by decide),
   c9_fail_fast.2.2.2.1 Unit unitService "123" "https://x.com" "1000" ["bogus"]
     (by decide) (by decide) (by decide),
   c9_fail_fast.2.2.2.2 Unit unitService "123" "https://" "1000"
     ["geoTargetConstants/2124"] (by decide) (by decide) (by decide)⟩

/-! ## categorize_keywords_with_gpt52 theorems -/

/-- Claim C10: when the blog content or the CSV content is empty or
whitespace-only, categorize_keywords_with_gpt52 returns the fixed
missing-inputs error record, for every llm capability — the model is never
consulted. -/
theorem c10_missing_inputs (llm : String → String → Except String String)
    (blog_content csv_content developer_prompt : String)
    (h : pyStripL blog_content.data = [] ∨ pyStripL csv_content.data = []) :
    categorize_keywords_with_gpt52 llm blog_content csv_content developer_prompt =
      missingInputRecord := by
  unfold categorize_keywords_with_gpt52
  rcases h with h | h
  · simp [h]
  · by_cases hb : blog_content.data = [] ∨ pyStripL blog_content.data = []
    · simp [hb]
    · simp [hb, h]

/-- Witness for C10: whitespace-only blog content short-circuits to the
missing-inputs record even though the llm would answer. -/
theorem c10_witness :
    categorize_keywords_with_gpt52 (fun _ _ => .ok "\x7b\x7d") "   "
        "keyword,volume" "prompt" = missingInputRecord :=
  c10_missing_inputs (fun _ _ => .ok "\x7b\x7d") "   " "keyword,volume" "prompt"
    (Or.inl (by decide))

/-! ## Repairer shape theorems -/

/-- Claim C1 counterexample: on the raw response text 42 the repairer
returns the parsed number — a value that is not a dictionary — so the
as-stated claim that it always returns a dictionary fails. -/
theorem c1_counterexample :
    repair "42" = Json.num "42" ∧ (repair "42").isObj = false :=
  ⟨rfl, rfl⟩

/-- Claim C1 (amended): the repairer never raises: for every raw response
text it returns a value — the result of the first successful parse attempt
(which is whatever json value the response held, not necessarily a
dictionary), or, when every attempt fails, the record whose sole field is an
error description. -/
theorem c1_always_value (raw : List Char) :
    (∃ v, firstSuccessOf raw = some v ∧ repairL raw = v) ∨
    (firstSuccessOf raw = none ∧ isErrRecord (repairL raw) = true) := by
  cases h1 : loads (jsonTextOf (pyStripL raw)) with
  | ok v =>
    left
    exact ⟨v, by simp [firstSuccessOf, repairAttempts, h1],
      by simp [repairL, h1]⟩
  | error e1 =>
    cases h2 : loads (braceFix (fixCommon (jsonTextOf (pyStripL raw)))) with
    | ok v =>
      left
      exact ⟨v, by simp [firstSuccessOf, repairAttempts, h1, h2],
        by simp [repairL, h1, h2]⟩
    | error e2 =>
      cases h3 : loads (jsonLinesOf (braceFix (fixCommon (jsonTextOf (pyStripL raw))))) with
      | ok v =>
        left
        exact ⟨v, by simp [firstSuccessOf, repairAttempts, h1, h2, h3],
          by simp [repairL, h1, h2, h3]⟩
      | error e3 =>
        right
        exact ⟨by simp [firstSuccessOf, repairAttempts, h1, h2, h3],
          by simp [repairL, h1, h2, h3, isErrRecord]⟩

/-- Claim C7 counterexample: on the truncated input with an unclosed
bracket, every repair attempt fails and the pipeline falls through to the
error record instead of recovering a valid record. -/
theorem c7_counterexample :
    firstSuccessOf "\x7b\"a\": [1, 2".data = none ∧
    isErrRecord (repair "\x7b\"a\": [1, 2") = true :=
  ⟨rfl, rfl⟩

/-- Claim C7 (amended): truncation recovery appends closing braces only, so
the pipeline recovers truncated input whose missing closers are all braces,
while the spec's bracket-truncated example falls through to the error
record. -/
theorem c7_brace_truncation :
    repair "\x7b\"a\": \x7b\"b\": 1" =
      Json.obj [("a", Json.obj [("b", Json.num "1")])] ∧
    isErrRecord (repair "\x7b\"a\": [1, 2") = true :=
  ⟨rfl, rfl⟩

/-! ## Whitespace, boundary and prefix lemmas for the parser -/

/-- skipWs is dropWhile of json whitespace. -/
theorem skipWs_eq_dropWhile (cs : List Char) : skipWs cs = cs.dropWhile isJWs := by
  induction cs with
  | nil => rfl
  | cons c cs ih => by_cases h : isJWs c <;> simp [skipWs, List.dropWhile_cons, h, ih]

/-- skipWs keeps a non-whitespace head in place. -/
theorem skipWs_cons_of_not (c : Char) (cs : List Char) (h : isJWs c = false) :
    skipWs (c :: cs) = c :: cs := by
  simp [skipWs, h]

/-- skipWs jumps over an all-whitespace prefix. -/
theorem skipWs_append_ws (w cs : List Char) (h : ∀ c ∈ w, isJWs c = true) :
    skipWs (w ++ cs) = skipWs cs := by
  induction w with
  | nil => rfl
  | cons c w ih =>
    have hc : isJWs c = true := h c (List.mem_cons_self c w)
    simp only [List.cons_append, skipWs, hc, if_true]
    exact ih (fun x hx => h x (List.mem_cons_of_mem c hx))

/-- The head surviving skipWs is not whitespace. -/
theorem skipWs_head_false (cs : List Char) (c : Char) (t : List Char)
    (h : skipWs cs = c :: t) : isJWs c = false := by
  rw [skipWs_eq_dropWhile] at h
  induction cs with
  | nil => simp at h
  | cons x xs ih =>
    by_cases hx : isJWs x
    · simp [List.dropWhile_cons, hx] at h
      exact ih h
    · simp [List.dropWhile_cons, hx] at h
      rw [← h.1]
      simpa using hx

/-- The input splits as its whitespace prefix followed by the skipWs
remainder. -/
theorem skipWs_split (cs : List Char) :
    cs = cs.takeWhile isJWs ++ skipWs cs ∧
      ∀ c ∈ cs.takeWhile isJWs, isJWs c = true :=
  ⟨by rw [skipWs_eq_dropWhile]; exact (List.takeWhile_append_dropWhile isJWs cs).symm,
   fun c hc => List.mem_takeWhile_imp hc⟩

/-- Empty skipWs result means the whole input is whitespace. -/
theorem skipWs_nil_all (cs : List Char) (h : skipWs cs = []) :
    ∀ c ∈ cs, isJWs c = true := by
  rw [skipWs_eq_dropWhile] at h
  exact List.dropWhile_eq_nil_iff.mp h

/-- Json whitespace cannot extend a number token. -/
theorem extChar_of_jws (c : Char) (h : isJWs c = true) : extChar c = false := by
  simp [isJWs] at h
  rcases h with ((h | h) | h) | h <;> subst h <;> decide

/-- The empty boundary is good. -/
theorem goodB_nil : goodBoundary [] := by
  intro c h
  simp at h

/-- A boundary starting with a non-extending character is good. -/
theorem goodB_cons (d : Char) (z : List Char) (hd : extChar d = false) :
    goodBoundary (d :: z) := by
  intro c h
  simp at h
  rwa [← h]

/-- A whitespace run followed by a non-extending character is a good
boundary. -/
theorem goodB_ws_cons (w : List Char) (d : Char) (z : List Char)
    (hw : ∀ c ∈ w, isJWs c = true) (hd : extChar d = false) :
    goodBoundary (w ++ d :: z) := by
  cases w with
  | nil => exact goodB_cons d z hd
  | cons x xs =>
    exact goodB_cons x (xs ++ d :: z)
      (extChar_of_jws x (hw x (List.mem_cons_self x xs)))

/-- An all-whitespace boundary is good. -/
theorem goodB_all_ws (w : List Char) (hw : ∀ c ∈ w, isJWs c = true) :
    goodBoundary w := by
  cases w with
  | nil => exact goodB_nil
  | cons x xs =>
    exact goodB_cons x xs (extChar_of_jws x (hw x (List.mem_cons_self x xs)))

/-- stripPre succeeds exactly on the literal prefix. -/
theorem stripPre_eq_some (p : List Char) :
    ∀ s rest, stripPre p s = some rest → s = p ++ rest := by
  induction p with
  | nil =>
    intro s rest h
    simp [stripPre] at h
    simp [h]
  | cons x ps ih =>
    intro s rest h
    cases s with
    | nil => simp [stripPre] at h
    | cons y s' =>
      simp only [stripPre] at h
      by_cases hxy : x = y
      · rw [if_pos hxy] at h
        rw [ih s' rest h, hxy]
        rfl
      · rw [if_neg hxy] at h
        exact Option.noConfusion h

/-- stripPre recovers the remainder after its literal prefix. -/
theorem stripPre_append (p x : List Char) : stripPre p (p ++ x) = some x := by
  induction p with
  | nil => rfl
  | cons c ps ih => simp [stripPre, ih]


/-! ## String-token lemmas -/

set_option maxHeartbeats 1600000 in
/-- parseStrF at zero fuel. -/
theorem parseStrF_zero (cs : List Char) : parseStrF 0 cs = .error "Depth exhausted" := by
  rw [parseStrF.eq_1]

/-- parseStrF on the empty input. -/
theorem parseStrF_nil (f : Nat) : parseStrF (f + 1) [] = .error "Unterminated string" := by
  rw [parseStrF.eq_2]

/-- A closing quote ends the string at once. -/
theorem parseStrF_quote (f : Nat) (cs : List Char) :
    parseStrF (f + 1) ('"' :: cs) = .ok ([], cs) := by
  rcases cs with _ | ⟨e, _ | ⟨a1, _ | ⟨a2, _ | ⟨a3, _ | ⟨a4, t⟩⟩⟩⟩⟩
  · rw [parseStrF.eq_3]; simp
  · rw [parseStrF.eq_5 f '"' e [] (by intro _ _ _ _ _ h; simp at h)]; simp
  · rw [parseStrF.eq_5 f '"' e [a1] (by intro _ _ _ _ _ h; simp at h)]; simp
  · rw [parseStrF.eq_5 f '"' e [a1, a2] (by intro _ _ _ _ _ h; simp at h)]; simp
  · rw [parseStrF.eq_5 f '"' e [a1, a2, a3] (by intro _ _ _ _ _ h; simp at h)]; simp
  · rw [parseStrF.eq_4]; simp

/-- A lone backslash is a truncated string. -/
theorem parseStrF_bs_nil (f : Nat) :
    parseStrF (f + 1) ['\\'] = .error "Unterminated string" := by
  rw [parseStrF.eq_3]; simp

/-- A recognised single-character escape steps into the remainder. -/
theorem parseStrF_esc (f : Nat) (e : Char) (cs : List Char) (he : escOk e = true) :
    parseStrF (f + 1) ('\\' :: e :: cs) =
      (match parseStrF f cs with
       | .ok (b, r) => .ok ('\\' :: e :: b, r)
       | .error m => .error m) := by
  rcases cs with _ | ⟨a1, _ | ⟨a2, _ | ⟨a3, _ | ⟨a4, t⟩⟩⟩⟩
  · rw [parseStrF.eq_5 f '\\' e [] (by intro _ _ _ _ _ h; simp at h)]; simp [he]
  · rw [parseStrF.eq_5 f '\\' e [a1] (by intro _ _ _ _ _ h; simp at h)]; simp [he]
  · rw [parseStrF.eq_5 f '\\' e [a1, a2] (by intro _ _ _ _ _ h; simp at h)]; simp [he]
  · rw [parseStrF.eq_5 f '\\' e [a1, a2, a3] (by intro _ _ _ _ _ h; simp at h)]; simp [he]
  · rw [parseStrF.eq_4]; simp [he]

/-- A valid unicode escape steps past its six characters. -/
theorem parseStrF_uhex (f : Nat) (h1 h2 h3 h4 : Char) (t : List Char)
    (hh : (isHexDig h1 && isHexDig h2 && isHexDig h3 && isHexDig h4) = true) :
    parseStrF (f + 1) ('\\' :: 'u' :: h1 :: h2 :: h3 :: h4 :: t) =
      (match parseStrF f t with
       | .ok (b, r) => .ok ('\\' :: 'u' :: h1 :: h2 :: h3 :: h4 :: b, r)
       | .error m => .error m) := by
  rw [parseStrF.eq_4]; simp [hh, escOk]

/-- A unicode escape with fewer than four following characters fails. -/
theorem parseStrF_ushort (f : Nat) (cs : List Char)
    (hsh : ∀ a1 a2 a3 a4 t, cs = a1 :: a2 :: a3 :: a4 :: t → False) :
    parseStrF (f + 1) ('\\' :: 'u' :: cs) = .error "Invalid hex escape" := by
  rcases cs with _ | ⟨a1, _ | ⟨a2, _ | ⟨a3, _ | ⟨a4, t⟩⟩⟩⟩
  · rw [parseStrF.eq_5 f '\\' 'u' [] (by intro _ _ _ _ _ h; simp at h)]; simp [escOk]
  · rw [parseStrF.eq_5 f '\\' 'u' [a1] (by intro _ _ _ _ _ h; simp at h)]; simp [escOk]
  · rw [parseStrF.eq_5 f '\\' 'u' [a1, a2] (by intro _ _ _ _ _ h; simp at h)]; simp [escOk]
  · rw [parseStrF.eq_5 f '\\' 'u' [a1, a2, a3] (by intro _ _ _ _ _ h; simp at h)]; simp [escOk]
  · exact absurd rfl (fun h => hsh a1 a2 a3 a4 t h)

/-- A unicode escape with a bad hex quadruple fails. -/
theorem parseStrF_ubadhex (f : Nat) (h1 h2 h3 h4 : Char) (t : List Char)
    (hh : ¬(isHexDig h1 && isHexDig h2 && isHexDig h3 && isHexDig h4) = true) :
    parseStrF (f + 1) ('\\' :: 'u' :: h1 :: h2 :: h3 :: h4 :: t) =
      .error "Invalid hex escape" := by
  rw [parseStrF.eq_4]; simp [hh, escOk]

/-- An unrecognised escape fails. -/
theorem parseStrF_badesc (f : Nat) (e : Char) (cs : List Char)
    (he : ¬escOk e = true) (hu : ¬e = 'u') :
    parseStrF (f + 1) ('\\' :: e :: cs) = .error "Invalid escape" := by
  rcases cs with _ | ⟨a1, _ | ⟨a2, _ | ⟨a3, _ | ⟨a4, t⟩⟩⟩⟩
  · rw [parseStrF.eq_5 f '\\' e [] (by intro _ _ _ _ _ h; simp at h)]; simp [he, hu]
  · rw [parseStrF.eq_5 f '\\' e [a1] (by intro _ _ _ _ _ h; simp at h)]; simp [he, hu]
  · rw [parseStrF.eq_5 f '\\' e [a1, a2] (by intro _ _ _ _ _ h; simp at h)]; simp [he, hu]
  · rw [parseStrF.eq_5 f '\\' e [a1, a2, a3] (by intro _ _ _ _ _ h; simp at h)]; simp [he, hu]
  · rw [parseStrF.eq_4]; simp [he, hu]

/-- An unescaped control character fails. -/
theorem parseStrF_ctrl (f : Nat) (c : Char) (cs : List Char)
    (hq : ¬c = '"') (hb : ¬c = '\\') (h32 : c.toNat < 32) :
    parseStrF (f + 1) (c :: cs) = .error "Invalid control character" := by
  rcases cs with _ | ⟨e, _ | ⟨a1, _ | ⟨a2, _ | ⟨a3, _ | ⟨a4, t⟩⟩⟩⟩⟩
  · rw [parseStrF.eq_3]; simp [hq, hb, h32]
  · rw [parseStrF.eq_5 f c e [] (by intro _ _ _ _ _ h; simp at h)]; simp [hq, hb, h32]
  · rw [parseStrF.eq_5 f c e [a1] (by intro _ _ _ _ _ h; simp at h)]; simp [hq, hb, h32]
  · rw [parseStrF.eq_5 f c e [a1, a2] (by intro _ _ _ _ _ h; simp at h)]; simp [hq, hb, h32]
  · rw [parseStrF.eq_5 f c e [a1, a2, a3] (by intro _ _ _ _ _ h; simp at h)]; simp [hq, hb, h32]
  · rw [parseStrF.eq_4]; simp [hq, hb, h32]

/-- An ordinary character is consumed into the body. -/
theorem parseStrF_norm (f : Nat) (c : Char) (cs : List Char)
    (hq : ¬c = '"') (hb : ¬c = '\\') (h32 : ¬c.toNat < 32) :
    parseStrF (f + 1) (c :: cs) =
      (match parseStrF f cs with
       | .ok (b, r) => .ok (c :: b, r)
       | .error m => .error m) := by
  rcases cs with _ | ⟨e, _ | ⟨a1, _ | ⟨a2, _ | ⟨a3, _ | ⟨a4, t⟩⟩⟩⟩⟩
  · rw [parseStrF.eq_3]; simp [hq, hb, h32]
  · rw [parseStrF.eq_5 f c e [] (by intro _ _ _ _ _ h; simp at h)]; simp [hq, hb, h32]
  · rw [parseStrF.eq_5 f c e [a1] (by intro _ _ _ _ _ h; simp at h)]; simp [hq, hb, h32]
  · rw [parseStrF.eq_5 f c e [a1, a2] (by intro _ _ _ _ _ h; simp at h)]; simp [hq, hb, h32]
  · rw [parseStrF.eq_5 f c e [a1, a2, a3] (by intro _ _ _ _ _ h; simp at h)]; simp [hq, hb, h32]
  · rw [parseStrF.eq_4]; simp [hq, hb, h32]

/-- Master lemma for string tokens: a successful parse consumed exactly the
returned raw body plus the closing quote, and that consumed span reparses to
the same body in front of any continuation, at any fuel above the body
length. -/
theorem parseStrF_master : ∀ (f : Nat) (cs b rest : List Char),
    parseStrF f cs = .ok (b, rest) →
    cs = b ++ '"' :: rest ∧
    ∀ g rest₂, b.length < g → parseStrF g (b ++ '"' :: rest₂) = .ok (b, rest₂) := by
  intro f
  induction f with
  | zero =>
    intro cs b rest h
    rw [parseStrF_zero] at h
    exact absurd h (by simp)
  | succ f ih =>
    intro cs b rest h
    cases cs with
    | nil =>
      rw [parseStrF_nil] at h
      exact absurd h (by simp)
    | cons c cs' =>
      by_cases hq : c = '"'
      · subst hq
        rw [parseStrF_quote] at h
        simp only [Except.ok.injEq, Prod.mk.injEq] at h
        obtain ⟨rfl, rfl⟩ := h
        refine ⟨by simp, ?_⟩
        intro g rest₂ hg
        cases g with
        | zero => exact absurd hg (Nat.not_lt_zero _)
        | succ g' => simpa using parseStrF_quote g' rest₂
      · by_cases hb : c = '\\'
        · subst hb
          cases cs' with
          | nil =>
            rw [parseStrF_bs_nil] at h
            exact absurd h (by simp)
          | cons e cs'' =>
            by_cases he : escOk e = true
            · rw [parseStrF_esc f e cs'' he] at h
              cases hrec : parseStrF f cs'' with
              | error m =>
                rw [hrec] at h
                exact absurd h (by simp)
              | ok p =>
                obtain ⟨b₁, r₁⟩ := p
                rw [hrec] at h
                simp only [Except.ok.injEq, Prod.mk.injEq] at h
                obtain ⟨rfl, rfl⟩ := h
                obtain ⟨ih1, ih2⟩ := ih cs'' b₁ r₁ hrec
                refine ⟨by simp [ih1], ?_⟩
                intro g rest₂ hg
                cases g with
                | zero => exact absurd hg (Nat.not_lt_zero _)
                | succ g' =>
                  have hstep := parseStrF_esc g' e (b₁ ++ '"' :: rest₂) he
                  rw [ih2 g' rest₂ (by simp at hg; omega)] at hstep
                  simpa using hstep
            · by_cases hu : e = 'u'
              · subst hu
                rcases cs'' with _ | ⟨a1, _ | ⟨a2, _ | ⟨a3, _ | ⟨a4, t⟩⟩⟩⟩
                · rw [parseStrF_ushort f [] (by intro _ _ _ _ _ hh; simp at hh)] at h
                  exact absurd h (by simp)
                · rw [parseStrF_ushort f [a1] (by intro _ _ _ _ _ hh; simp at hh)] at h
                  exact absurd h (by simp)
                · rw [parseStrF_ushort f [a1, a2] (by intro _ _ _ _ _ hh; simp at hh)] at h
                  exact absurd h (by simp)
                · rw [parseStrF_ushort f [a1, a2, a3] (by intro _ _ _ _ _ hh; simp at hh)] at h
                  exact absurd h (by simp)
                · by_cases hh : (isHexDig a1 && isHexDig a2 && isHexDig a3 && isHexDig a4) = true
                  · rw [parseStrF_uhex f a1 a2 a3 a4 t hh] at h
                    cases hrec : parseStrF f t with
                    | error m =>
                      rw [hrec] at h
                      exact absurd h (by simp)
                    | ok p =>
                      obtain ⟨b₁, r₁⟩ := p
                      rw [hrec] at h
                      simp only [Except.ok.injEq, Prod.mk.injEq] at h
                      obtain ⟨rfl, rfl⟩ := h
                      obtain ⟨ih1, ih2⟩ := ih t b₁ r₁ hrec
                      refine ⟨by simp [ih1], ?_⟩
                      intro g rest₂ hg
                      cases g with
                      | zero => exact absurd hg (Nat.not_lt_zero _)
                      | succ g' =>
                        have hstep := parseStrF_uhex g' a1 a2 a3 a4 (b₁ ++ '"' :: rest₂) hh
                        rw [ih2 g' rest₂ (by simp at hg; omega)] at hstep
                        simpa using hstep
                  · rw [parseStrF_ubadhex f a1 a2 a3 a4 t hh] at h
                    exact absurd h (by simp)
              · rw [parseStrF_badesc f e cs'' he hu] at h
                exact absurd h (by simp)
        · by_cases h32 : c.toNat < 32
          · rw [parseStrF_ctrl f c cs' hq hb h32] at h
            exact absurd h (by simp)
          · rw [parseStrF_norm f c cs' hq hb h32] at h
            cases hrec : parseStrF f cs' with
            | error m =>
              rw [hrec] at h
              exact absurd h (by simp)
            | ok p =>
              obtain ⟨b₁, r₁⟩ := p
              rw [hrec] at h
              simp only [Except.ok.injEq, Prod.mk.injEq] at h
              obtain ⟨rfl, rfl⟩ := h
              obtain ⟨ih1, ih2⟩ := ih cs' b₁ r₁ hrec
              refine ⟨by simp [ih1], ?_⟩
              intro g rest₂ hg
              cases g with
              | zero => exact absurd hg (Nat.not_lt_zero _)
              | succ g' =>
                have hstep := parseStrF_norm g' c (b₁ ++ '"' :: rest₂) hq hb h32
                rw [ih2 g' rest₂ (by simp at hg; omega)] at hstep
                simpa using hstep

/-! ## Number-token lemmas -/

/-- The head surviving a dropWhile fails the predicate. -/
theorem dropWhile_head_false (p : Char → Bool) (l : List Char) (c : Char)
    (t : List Char) (h : l.dropWhile p = c :: t) : p c = false := by
  induction l with
  | nil => simp at h
  | cons x xs ih =>
    by_cases hx : p x
    · simp [List.dropWhile_cons, hx] at h
      exact ih h
    · simp [List.dropWhile_cons, hx] at h
      rw [← h.1]
      simpa using hx

/-- A digit run followed by a non-digit boundary spans exactly itself. -/
theorem span_digits (ds r : List Char) (hds : ∀ c ∈ ds, c.isDigit = true)
    (hr : ∀ c, r.head? = some c → c.isDigit = false) :
    (ds ++ r).takeWhile Char.isDigit = ds ∧ (ds ++ r).dropWhile Char.isDigit = r := by
  induction ds with
  | nil =>
    cases r with
    | nil => exact ⟨rfl, rfl⟩
    | cons c t =>
      have := hr c rfl
      constructor <;> simp [List.takeWhile_cons, List.dropWhile_cons, this]
  | cons d ds' ih =>
    have hd := hds d (List.mem_cons_self d ds')
    have ih' := ih (fun c hc => hds c (List.mem_cons_of_mem d hc))
    constructor
    · simp [List.takeWhile_cons, hd, ih'.1]
    · simp [List.dropWhile_cons, hd, ih'.2]

/-- All facts packed in a good boundary head. -/
theorem goodB_facts (r : List Char) (c : Char) (h : goodBoundary r)
    (hc : r.head? = some c) :
    c.isDigit = false ∧ ¬c = '.' ∧ ¬c = 'e' ∧ ¬c = 'E' := by
  have := h c hc
  simp [extChar] at this
  obtain ⟨⟨⟨⟨⟨h1, h2⟩, h3⟩, h4⟩, h5⟩, h6⟩ := this
  exact ⟨h1, h2, h3, h4⟩

/-- An exponent marker is not a digit. -/
theorem isE_not_digit (e : Char) (h : e = 'e' ∨ e = 'E') : e.isDigit = false := by
  rcases h with h | h <;> subst h <;> decide

/-- fracPart passes through input not led by a dot. -/
theorem fracPart_not_dot (acc r : List Char)
    (h : ∀ c, r.head? = some c → ¬c = '.') : fracPart acc r = (acc, r) := by
  cases r with
  | nil => rfl
  | cons c t =>
    have hc := h c rfl
    simp only [fracPart]
    split
    · next d₂ rest heq =>
      rw [List.cons.injEq] at heq
      exact absurd heq.1 hc
    · rfl

/-- fracPart munches a dot followed by a digit run, up to a non-digit. -/
theorem fracPart_dot (acc ds X : List Char) (hne : ds ≠ [])
    (hds : ∀ c ∈ ds, c.isDigit = true)
    (hX : ∀ c, X.head? = some c → c.isDigit = false) :
    fracPart acc ('.' :: (ds ++ X)) = (acc ++ '.' :: ds, X) := by
  cases ds with
  | nil => exact absurd rfl hne
  | cons d ds' =>
    have hd := hds d (List.mem_cons_self d ds')
    have hsp := span_digits (d :: ds') X hds hX
    have h1 : (d :: (ds' ++ X)).takeWhile Char.isDigit = d :: ds' := by
      rw [← List.cons_append]
      exact hsp.1
    have h2 : (d :: (ds' ++ X)).dropWhile Char.isDigit = X := by
      rw [← List.cons_append]
      exact hsp.2
    simp only [List.cons_append, fracPart, hd, if_true, h1, h2]

/-- expPart passes through input not led by an exponent marker. -/
theorem expPart_not_e (acc r : List Char)
    (h : ∀ c, r.head? = some c → ¬c = 'e' ∧ ¬c = 'E') : expPart acc r = (acc, r) := by
  cases r with
  | nil => rfl
  | cons e t =>
    have he := h e rfl
    simp [expPart, he.1, he.2]

/-- expPart munches marker, optional sign and digit run, up to a
non-digit. -/
theorem expPart_run (acc : List Char) (e : Char) (sgn ds X : List Char)
    (he : e = 'e' ∨ e = 'E')
    (hsgn : sgn = [] ∨ ∃ s, sgn = [s] ∧ (s = '+' ∨ s = '-'))
    (hne : ds ≠ []) (hds : ∀ c ∈ ds, c.isDigit = true)
    (hX : ∀ c, X.head? = some c → c.isDigit = false) :
    expPart acc (e :: (sgn ++ ds ++ X)) = (acc ++ e :: (sgn ++ ds), X) := by
  have heb : (e = 'e' || e = 'E') = true := by
    rcases he with h | h <;> simp [h]
  cases ds with
  | nil => exact absurd rfl hne
  | cons d ds' =>
    have hd := hds d (List.mem_cons_self d ds')
    have hsp := span_digits (d :: ds') X hds hX
    rcases hsgn with hsgn | ⟨s, rfl, hs⟩
    · subst hsgn
      have hdpm : (d = '+' || d = '-') = false := by
        have hp : ¬d = '+' := fun he => by rw [he] at hd; simp at hd
        have hm : ¬d = '-' := fun he => by rw [he] at hd; simp at hd
        simp [hp, hm]
      have h1 : (d :: (ds' ++ X)).takeWhile Char.isDigit = d :: ds' := by
        rw [← List.cons_append]
        exact hsp.1
      have h2 : (d :: (ds' ++ X)).dropWhile Char.isDigit = X := by
        rw [← List.cons_append]
        exact hsp.2
      simp only [List.nil_append, List.cons_append, expPart, heb, if_true, hdpm,
        Bool.false_eq_true, if_false, hd, h1, h2]
    · have hsb : (s = '+' || s = '-') = true := by
        rcases hs with h | h <;> simp [h]
      have h1 : (d :: (ds' ++ X)).takeWhile Char.isDigit = d :: ds' := by
        rw [← List.cons_append]
        exact hsp.1
      have h2 : (d :: (ds' ++ X)).dropWhile Char.isDigit = X := by
        rw [← List.cons_append]
        exact hsp.2
      simp only [List.cons_append, List.nil_append, expPart, heb, if_true, hsb, hd,
        h1, h2]

/-- Decomposition of a fracPart run: either nothing was consumed, or a dot
and a non-empty digit run were, leaving a non-digit boundary. -/
theorem fracPart_master (acc r lex₁ r₁ : List Char)
    (h : fracPart acc r = (lex₁, r₁)) :
    ∃ tf, lex₁ = acc ++ tf ∧ r = tf ++ r₁ ∧
      (tf = [] ∨ ∃ tw, tf = '.' :: tw ∧ tw ≠ [] ∧
        (∀ c ∈ tw, c.isDigit = true) ∧
        (∀ c, r₁.head? = some c → c.isDigit = false)) := by
  rcases r with _ | ⟨c, r'⟩
  · simp only [fracPart] at h
    rw [Prod.mk.injEq] at h
    obtain ⟨rfl, rfl⟩ := h
    exact ⟨[], by simp, rfl, Or.inl rfl⟩
  · rcases r' with _ | ⟨d, r''⟩
    · simp only [fracPart] at h
      rw [Prod.mk.injEq] at h
      obtain ⟨rfl, rfl⟩ := h
      exact ⟨[], by simp, rfl, Or.inl rfl⟩
    · by_cases hc : c = '.'
      · subst hc
        by_cases hd : d.isDigit
        · simp only [fracPart, hd, if_true] at h
          rw [Prod.mk.injEq] at h
          obtain ⟨rfl, rfl⟩ := h
          have htw : (d :: r'').takeWhile Char.isDigit = d :: r''.takeWhile Char.isDigit := by
            simp [List.takeWhile_cons, hd]
          have hsplit := List.takeWhile_append_dropWhile Char.isDigit (d :: r'')
          refine ⟨'.' :: (d :: r'').takeWhile Char.isDigit, by simp, by simp [hsplit],
            Or.inr ⟨(d :: r'').takeWhile Char.isDigit, rfl, by simp [htw],
              fun c hc => List.mem_takeWhile_imp hc, ?_⟩⟩
          intro c hc
          cases hdw : (d :: r'').dropWhile Char.isDigit with
          | nil => rw [hdw] at hc; simp at hc
          | cons x t =>
            rw [hdw] at hc
            simp at hc
            rw [← hc]
            exact dropWhile_head_false Char.isDigit (d :: r'') x t hdw
        · simp only [fracPart, hd, Bool.false_eq_true, if_false] at h
          rw [Prod.mk.injEq] at h
          obtain ⟨rfl, rfl⟩ := h
          exact ⟨[], by simp, rfl, Or.inl rfl⟩
      · have hnd : ∀ x, (c :: d :: r'').head? = some x → ¬x = '.' := by
          intro x hx
          simp at hx
          rw [← hx]
          exact hc
        rw [fracPart_not_dot acc (c :: d :: r'') hnd] at h
        rw [Prod.mk.injEq] at h
        obtain ⟨rfl, rfl⟩ := h
        exact ⟨[], by simp, rfl, Or.inl rfl⟩

/-- Decomposition of an expPart run: either nothing was consumed, or a
marker, an optional sign and a non-empty digit run were, leaving a non-digit
boundary. -/
theorem expPart_master (acc r lex₁ r₁ : List Char)
    (h : expPart acc r = (lex₁, r₁)) :
    ∃ te, lex₁ = acc ++ te ∧ r = te ++ r₁ ∧
      (te = [] ∨ ∃ e sgn ds, te = e :: (sgn ++ ds) ∧ (e = 'e' ∨ e = 'E') ∧
        (sgn = [] ∨ ∃ s, sgn = [s] ∧ (s = '+' ∨ s = '-')) ∧
        ds ≠ [] ∧ (∀ c ∈ ds, c.isDigit = true) ∧
        (∀ c, r₁.head? = some c → c.isDigit = false)) := by
  rcases r with _ | ⟨e, rest⟩
  · simp only [expPart] at h
    rw [Prod.mk.injEq] at h
    obtain ⟨rfl, rfl⟩ := h
    exact ⟨[], by simp, rfl, Or.inl rfl⟩
  · by_cases heb : (e = 'e' || e = 'E') = true
    · have heo : e = 'e' ∨ e = 'E' := by
        rcases Bool.or_eq_true_iff.mp heb with h | h
        · exact Or.inl (by simpa using h)
        · exact Or.inr (by simpa using h)
      rcases rest with _ | ⟨s, rest₂⟩
      · simp only [expPart, heb, if_true] at h
        rw [Prod.mk.injEq] at h
        obtain ⟨rfl, rfl⟩ := h
        exact ⟨[], by simp, rfl, Or.inl rfl⟩
      · by_cases hsb : (s = '+' || s = '-') = true
        · rcases rest₂ with _ | ⟨d, rest₃⟩
          · simp only [expPart, heb, if_true, hsb] at h
            rw [Prod.mk.injEq] at h
            obtain ⟨rfl, rfl⟩ := h
            exact ⟨[], by simp, rfl, Or.inl rfl⟩
          · by_cases hd : d.isDigit = true
            · simp only [expPart, heb, if_true, hsb, hd] at h
              rw [Prod.mk.injEq] at h
              obtain ⟨rfl, rfl⟩ := h
              have hso : s = '+' ∨ s = '-' := by
                rcases Bool.or_eq_true_iff.mp hsb with h | h
                · exact Or.inl (by simpa using h)
                · exact Or.inr (by simpa using h)
              have htw : (d :: rest₃).takeWhile Char.isDigit =
                  d :: rest₃.takeWhile Char.isDigit := by
                simp [List.takeWhile_cons, hd]
              refine ⟨e :: s :: (d :: rest₃).takeWhile Char.isDigit, by simp, ?_,
                Or.inr ⟨e, [s], (d :: rest₃).takeWhile Char.isDigit, by simp, heo,
                  Or.inr ⟨s, rfl, hso⟩, by simp [htw],
                  fun c hc => List.mem_takeWhile_imp hc, ?_⟩⟩
              · have hsplit := List.takeWhile_append_dropWhile Char.isDigit (d :: rest₃)
                simp [hsplit]
              · intro c hc
                cases hdw : (d :: rest₃).dropWhile Char.isDigit with
                | nil => rw [hdw] at hc; simp at hc
                | cons x t =>
                  rw [hdw] at hc
                  simp at hc
                  rw [← hc]
                  exact dropWhile_head_false Char.isDigit (d :: rest₃) x t hdw
            · have hd' : d.isDigit = false := by
                cases hx : d.isDigit
                · rfl
                · exact absurd hx hd
              simp only [expPart, heb, if_true, hsb, hd', Bool.false_eq_true, if_false] at h
              rw [Prod.mk.injEq] at h
              obtain ⟨rfl, rfl⟩ := h
              exact ⟨[], by simp, rfl, Or.inl rfl⟩
        · have hsb' : (s = '+' || s = '-') = false := by
            cases hx : (s = '+' || s = '-')
            · rfl
            · exact absurd hx hsb
          by_cases hsd : s.isDigit = true
          · simp only [expPart, heb, if_true, hsb', Bool.false_eq_true, if_false, hsd] at h
            rw [Prod.mk.injEq] at h
            obtain ⟨rfl, rfl⟩ := h
            have htw : (s :: rest₂).takeWhile Char.isDigit =
                s :: rest₂.takeWhile Char.isDigit := by
              simp [List.takeWhile_cons, hsd]
            refine ⟨e :: (s :: rest₂).takeWhile Char.isDigit, by simp, ?_,
              Or.inr ⟨e, [], (s :: rest₂).takeWhile Char.isDigit, by simp, heo,
                Or.inl rfl, by simp [htw],
                fun c hc => List.mem_takeWhile_imp hc, ?_⟩⟩
            · have hsplit := List.takeWhile_append_dropWhile Char.isDigit (s :: rest₂)
              simp [hsplit]
            · intro c hc
              cases hdw : (s :: rest₂).dropWhile Char.isDigit with
              | nil => rw [hdw] at hc; simp at hc
              | cons x t =>
                rw [hdw] at hc
                simp at hc
                rw [← hc]
                exact dropWhile_head_false Char.isDigit (s :: rest₂) x t hdw
          · have hsd' : s.isDigit = false := by
              cases hx : s.isDigit
              · rfl
              · exact absurd hx hsd
            simp only [expPart, heb, if_true, hsb', hsd', Bool.false_eq_true, if_false] at h
            rw [Prod.mk.injEq] at h
            obtain ⟨rfl, rfl⟩ := h
            exact ⟨[], by simp, rfl, Or.inl rfl⟩
    · have heb' : (e = 'e' || e = 'E') = false := by
        cases hx : (e = 'e' || e = 'E')
        · rfl
        · exact absurd hx heb
      simp only [expPart, heb', Bool.false_eq_true, if_false] at h
      rw [Prod.mk.injEq] at h
      obtain ⟨rfl, rfl⟩ := h
      exact ⟨[], by simp, rfl, Or.inl rfl⟩

/-- Master lemma for the number tail: the consumed span is determined by the
input, and re-running on the span with any other good boundary attached
consumes exactly the span again. -/
theorem numTail_master (acc r lex rest : List Char)
    (h : numTail acc r = (lex, rest)) :
    ∃ t, lex = acc ++ t ∧ r = t ++ rest ∧
      (∀ c, t.head? = some c → c.isDigit = false) ∧
      ∀ rest₂, goodBoundary rest₂ →
        numTail acc (t ++ rest₂) = (acc ++ t, rest₂) := by
  have hfp : fracPart acc r = ((fracPart acc r).1, (fracPart acc r).2) := rfl
  have hep : expPart (fracPart acc r).1 (fracPart acc r).2 = (lex, rest) := h
  obtain ⟨tf, hl₁, hr, hftf⟩ :=
    fracPart_master acc r (fracPart acc r).1 (fracPart acc r).2 hfp
  obtain ⟨te, hlex, hr₁, hete⟩ :=
    expPart_master (fracPart acc r).1 (fracPart acc r).2 lex rest hep
  have hthead : ∀ c, (tf ++ te).head? = some c → c.isDigit = false := by
    intro c hc
    rcases hftf with htf0 | ⟨tw, htf, _, _, _⟩
    · rw [htf0] at hc
      simp only [List.nil_append] at hc
      rcases hete with hte0 | ⟨e, sgn, ds, hte, heo, _, _, _, _⟩
      · rw [hte0] at hc
        simp at hc
      · rw [hte] at hc
        simp only [List.head?_cons, Option.some.injEq] at hc
        rw [← hc]
        exact isE_not_digit e heo
    · rw [htf] at hc
      simp only [List.cons_append, List.head?_cons, Option.some.injEq] at hc
      rw [← hc]
      decide
  refine ⟨tf ++ te, by rw [hlex, hl₁, List.append_assoc], by
    rw [hr, hr₁, List.append_assoc], hthead, ?_⟩
  intro rest₂ hb₂
  have hteh : ∀ c, (te ++ rest₂).head? = some c →
      c.isDigit = false ∧ ¬c = '.' := by
    intro c hc
    rcases hete with hte0 | ⟨e, sgn, ds, hte, heo, _, _, _, _⟩
    · rw [hte0] at hc
      simp only [List.nil_append] at hc
      have := goodB_facts rest₂ c hb₂ hc
      exact ⟨this.1, this.2.1⟩
    · rw [hte] at hc
      simp only [List.cons_append, List.head?_cons, Option.some.injEq] at hc
      rw [← hc]
      constructor
      · exact isE_not_digit e heo
      · rcases heo with h | h <;> rw [h] <;> decide
  have hfr : fracPart acc (tf ++ (te ++ rest₂)) = (acc ++ tf, te ++ rest₂) := by
    rcases hftf with htf0 | ⟨tw, htf, htwne, htwd, _⟩
    · rw [htf0]
      simp only [List.nil_append, List.append_nil]
      exact fracPart_not_dot acc (te ++ rest₂) (fun c hc => (hteh c hc).2)
    · rw [htf]
      rw [List.cons_append]
      exact fracPart_dot acc tw (te ++ rest₂) htwne htwd
        (fun c hc => (hteh c hc).1)
  have hex : expPart (acc ++ tf) (te ++ rest₂) = ((acc ++ tf) ++ te, rest₂) := by
    rcases hete with hte0 | ⟨e, sgn, ds, hte, heo, hsgn, hdsne, hds, _⟩
    · rw [hte0]
      simp only [List.nil_append, List.append_nil]
      exact expPart_not_e (acc ++ tf) rest₂
        (fun c hc => by
          have := goodB_facts rest₂ c hb₂ hc
          exact ⟨this.2.2.1, this.2.2.2⟩)
    · rw [hte]
      have := expPart_run (acc ++ tf) e sgn ds rest₂ heo hsgn hdsne hds
        (fun c hc => (goodB_facts rest₂ c hb₂ hc).1)
      rw [List.cons_append, List.append_assoc]
      rw [List.append_assoc] at this
      exact this
  show expPart (fracPart acc ((tf ++ te) ++ rest₂)).1
      (fracPart acc ((tf ++ te) ++ rest₂)).2 = (acc ++ (tf ++ te), rest₂)
  rw [List.append_assoc, hfr]
  simp only []
  rw [hex, List.append_assoc]

/-- parseNumBody rejects input whose head is not a digit. -/
theorem parseNumBody_err (sign : List Char) (c : Char) (r : List Char)
    (hc : ¬c = '0') (hd : c.isDigit = false) :
    parseNumBody sign (c :: r) = .error "Expecting value" := by
  simp only [parseNumBody]
  split
  · next h => rw [hd] at h; exact absurd h (by simp)
  · rfl

/-- parseNum without a leading minus is parseNumBody with an empty sign. -/
theorem parseNum_not_minus (cs : List Char)
    (h : ∀ x, cs.head? = some x → ¬x = '-') :
    parseNum cs = parseNumBody [] cs := by
  cases cs with
  | nil => rfl
  | cons c r =>
    have hc := h c rfl
    simp only [parseNum]
    split
    · next heq => rw [List.cons.injEq] at heq; exact absurd heq.1 hc
    · rfl

/-- Master lemma for parseNumBody: a successful run consumes a determined
non-empty body, and re-running on the body with any good boundary attached
consumes exactly the body again. -/
theorem parseNumBody_master (sign cs lex rest : List Char)
    (h : parseNumBody sign cs = .ok (lex, rest)) :
    ∃ body, lex = sign ++ body ∧ cs = body ++ rest ∧ body ≠ [] ∧
      ∀ rest₂, goodBoundary rest₂ →
        parseNumBody sign (body ++ rest₂) = .ok (sign ++ body, rest₂) := by
  cases cs with
  | nil => simp [parseNumBody] at h
  | cons c r =>
    by_cases hc : c = '0'
    · subst hc
      simp only [parseNumBody] at h
      rw [Except.ok.injEq] at h
      obtain ⟨t, hlex, hr, hthead, hrerun⟩ := numTail_master (sign ++ ['0']) r lex rest h
      refine ⟨'0' :: t, by rw [hlex, List.append_assoc]; rfl, by rw [hr]; rfl,
        by simp, ?_⟩
      intro rest₂ hb₂
      show parseNumBody sign ('0' :: (t ++ rest₂)) = .ok (sign ++ ('0' :: t), rest₂)
      simp only [parseNumBody]
      rw [hrerun rest₂ hb₂, List.append_assoc]
      rfl
    · simp only [parseNumBody] at h
      split at h
      · next hd =>
        rw [Except.ok.injEq] at h
        obtain ⟨t, hlex, hr, hthead, hrerun⟩ :=
          numTail_master (sign ++ (c :: r).takeWhile Char.isDigit)
            ((c :: r).dropWhile Char.isDigit) lex rest h
        have htk : (c :: r).takeWhile Char.isDigit = c :: r.takeWhile Char.isDigit := by
          simp [List.takeWhile_cons, hd]
        have hcsplit : c :: r = (c :: r).takeWhile Char.isDigit ++ (c :: r).dropWhile Char.isDigit :=
          (List.takeWhile_append_dropWhile Char.isDigit (c :: r)).symm
        refine ⟨(c :: r).takeWhile Char.isDigit ++ t,
          by rw [hlex, List.append_assoc],
          by rw [List.append_assoc, ← hr]; exact hcsplit,
          by simp [htk], ?_⟩
        intro rest₂ hb₂
        have hY : ∀ x, (t ++ rest₂).head? = some x → x.isDigit = false := by
          intro x hx
          cases t with
          | nil =>
            simp only [List.nil_append] at hx
            exact (goodB_facts rest₂ x hb₂ hx).1
          | cons y ys =>
            simp only [List.cons_append, List.head?_cons, Option.some.injEq] at hx
            rw [← hx]
            exact hthead y rfl
        have hsp := span_digits ((c :: r).takeWhile Char.isDigit) (t ++ rest₂)
          (fun x hx => List.mem_takeWhile_imp hx) hY
        have hinput : ((c :: r).takeWhile Char.isDigit ++ t) ++ rest₂ =
            c :: (r.takeWhile Char.isDigit ++ (t ++ rest₂)) := by
          rw [List.append_assoc, htk]
          rfl
        rw [hinput]
        have hsp1 : (c :: (r.takeWhile Char.isDigit ++ (t ++ rest₂))).takeWhile Char.isDigit =
            (c :: r).takeWhile Char.isDigit := by
          have := hsp.1
          rw [htk] at this ⊢
          simpa using this
        have hsp2 : (c :: (r.takeWhile Char.isDigit ++ (t ++ rest₂))).dropWhile Char.isDigit =
            t ++ rest₂ := by
          have := hsp.2
          rw [htk] at this
          simpa using this
        simp only [parseNumBody]
        split
        · next hd₂ =>
          rw [hsp1, hsp2, hrerun rest₂ hb₂, List.append_assoc]
        · next hd₂ => exact absurd hd hd₂
      · next hd => simp at h

/-- Master lemma for the number token: a successful parse consumes exactly
the lexeme, and re-running on the lexeme with any good boundary attached
succeeds with the same lexeme. -/
theorem parseNum_master (cs lex rest : List Char)
    (h : parseNum cs = .ok (lex, rest)) :
    cs = lex ++ rest ∧ lex ≠ [] ∧
      ∀ rest₂, goodBoundary rest₂ → parseNum (lex ++ rest₂) = .ok (lex, rest₂) := by
  cases cs with
  | nil => simp [parseNum, parseNumBody] at h
  | cons c r =>
    by_cases hc : c = '-'
    · subst hc
      have h' : parseNumBody ['-'] r = .ok (lex, rest) := h
      obtain ⟨body, hlex, hr, hbne, hrerun⟩ := parseNumBody_master ['-'] r lex rest h'
      subst hlex
      refine ⟨by rw [hr]; rfl, by simp, ?_⟩
      intro rest₂ hb₂
      show parseNum ('-' :: (body ++ rest₂)) = .ok (['-'] ++ body, rest₂)
      show parseNumBody ['-'] (body ++ rest₂) = .ok (['-'] ++ body, rest₂)
      exact hrerun rest₂ hb₂
    · have h' : parseNumBody [] (c :: r) = .ok (lex, rest) := by
        rw [← parseNum_not_minus (c :: r) (fun x hx => by
          simp only [List.head?_cons, Option.some.injEq] at hx; rw [← hx]; exact hc)]
        exact h
      obtain ⟨body, hlex, hr, hbne, hrerun⟩ := parseNumBody_master [] (c :: r) lex rest h'
      simp only [List.nil_append] at hlex
      subst hlex
      refine ⟨hr, hbne, ?_⟩
      intro rest₂ hb₂
      have hbody : ∃ bs, lex = c :: bs := by
        cases lex with
        | nil => exact absurd rfl hbne
        | cons b bs =>
          rw [List.cons_append, List.cons.injEq] at hr
          exact ⟨bs, by rw [hr.1]⟩
      obtain ⟨bs, rfl⟩ := hbody
      rw [parseNum_not_minus ((c :: bs) ++ rest₂) (fun x hx => by
        simp only [List.cons_append, List.head?_cons, Option.some.injEq] at hx
        rw [← hx]; exact hc)]
      have := hrerun rest₂ hb₂
      simpa using this

/-- Master lemma for the mutual value/members/elements parsers: a successful
parse consumes a determined non-empty prefix of the input; re-running on
that prefix with any other tail attached (fuel above the prefix length,
boundaries good where a trailing number token could otherwise be extended)
succeeds with the same result and the new tail.  An object value's prefix
starts with an opening and ends with a closing brace. -/
theorem parse_master : ∀ f : Nat,
    (∀ cs v rest, parseValue f cs = .ok (v, rest) →
      ∃ pre, cs = pre ++ rest ∧ pre ≠ [] ∧
        (∀ kvs, v = Json.obj kvs → ∃ mid, pre = '\x7b' :: (mid ++ ['\x7d'])) ∧
        ∀ g rest₂, pre.length < g → goodBoundary rest → goodBoundary rest₂ →
          parseValue g (pre ++ rest₂) = .ok (v, rest₂)) ∧
    (∀ cs kvs rest, parseMembers f cs = .ok (kvs, rest) →
      ∃ pre, cs = pre ++ rest ∧ (∃ qm, pre = qm ++ ['\x7d']) ∧
        ∀ g rest₂, pre.length < g → parseMembers g (pre ++ rest₂) = .ok (kvs, rest₂)) ∧
    (∀ cs vs rest, parseElements f cs = .ok (vs, rest) →
      ∃ pre, cs = pre ++ rest ∧ (∃ qe, pre = qe ++ [']']) ∧
        ∀ g rest₂, pre.length < g → parseElements g (pre ++ rest₂) = .ok (vs, rest₂)) := by
  intro f
  induction f with
  | zero =>
    refine ⟨?_, ?_, ?_⟩
    · intro cs v rest h
      rw [parseValue.eq_1] at h
      exact absurd h (by simp)
    · intro cs kvs rest h
      rw [parseMembers.eq_1] at h
      exact absurd h (by simp)
    · intro cs vs rest h
      rw [parseElements.eq_1] at h
      exact absurd h (by simp)
  | succ f ih =>
    obtain ⟨ihV, ihM, ihE⟩ := ih
    refine ⟨?_, ?_, ?_⟩
    · -- parseValue
      intro cs v rest h
      cases cs with
      | nil =>
        rw [parseValue.eq_2] at h
        exact absurd h (by simp)
      | cons c r =>
        rw [parseValue.eq_3] at h
        by_cases h1 : c = '"'
        · subst h1
          rw [if_pos rfl] at h
          split at h
          · next b rest' heq =>
            rw [Except.ok.injEq, Prod.mk.injEq] at h
            obtain ⟨hv, hrest⟩ := h
            subst hv
            rw [hrest] at heq
            obtain ⟨hdec, hrerun⟩ := parseStrF_master f r b rest heq
            refine ⟨'"' :: (b ++ ['"']), by rw [hdec]; simp, by simp, ?_, ?_⟩
            · intro kvs hk
              simp at hk
            · intro g rest₂ hg hbr hbr₂
              cases g with
              | zero => exact absurd hg (Nat.not_lt_zero _)
              | succ g' =>
                have hbl : b.length < g' := by
                  simp only [List.length_cons, List.length_append] at hg
                  omega
                have hin : ('"' :: (b ++ ['"'])) ++ rest₂ = '"' :: (b ++ '"' :: rest₂) := by
                  simp
                rw [hin, parseValue.eq_3, if_pos rfl]
                simp only [hrerun g' rest₂ hbl]
          · next m heq => exact absurd h (by simp)
        · rw [if_neg h1] at h
          by_cases h2 : c = '\x7b'
          · subst h2
            rw [if_pos rfl] at h
            obtain ⟨hspl, hwsw⟩ := skipWs_split r
            split at h
            · next x rest' heq =>
              rw [Except.ok.injEq, Prod.mk.injEq] at h
              obtain ⟨hv, hrest⟩ := h
              subst hv
              rw [hrest] at heq
              refine ⟨'\x7b' :: (r.takeWhile isJWs ++ ['\x7d']), ?_, by simp, ?_, ?_⟩
              · conv_lhs => rw [hspl]
                rw [heq]
                simp
              · intro kvs hk
                exact ⟨r.takeWhile isJWs, rfl⟩
              · intro g rest₂ hg hbr hbr₂
                cases g with
                | zero => exact absurd hg (Nat.not_lt_zero _)
                | succ g' =>
                  have hin : ('\x7b' :: (r.takeWhile isJWs ++ ['\x7d'])) ++ rest₂ =
                      '\x7b' :: (r.takeWhile isJWs ++ '\x7d' :: rest₂) := by simp
                  rw [hin, parseValue.eq_3, if_neg (by decide), if_pos rfl,
                    skipWs_append_ws _ _ hwsw, skipWs_cons_of_not _ _ (by decide)]
                  rfl
            · next x r₂ heq =>
              split at h
              · next kvs' rest' heqm =>
                rw [Except.ok.injEq, Prod.mk.injEq] at h
                obtain ⟨hv, hrest⟩ := h
                subst hv
                rw [hrest] at heqm
                obtain ⟨pre_m, hmd, ⟨qm, hqm⟩, hmrerun⟩ := ihM r₂ kvs' rest heqm
                refine ⟨'\x7b' :: (r.takeWhile isJWs ++ '"' :: pre_m), ?_, by simp, ?_, ?_⟩
                · conv_lhs => rw [hspl]
                  rw [heq, hmd]
                  simp
                · intro kvs₀ hk
                  exact ⟨r.takeWhile isJWs ++ '"' :: qm, by rw [hqm]; simp⟩
                · intro g rest₂ hg hbr hbr₂
                  cases g with
                  | zero => exact absurd hg (Nat.not_lt_zero _)
                  | succ g' =>
                    have hml : pre_m.length < g' := by
                      simp only [List.length_cons, List.length_append] at hg
                      omega
                    have hin : ('\x7b' :: (r.takeWhile isJWs ++ '"' :: pre_m)) ++ rest₂ =
                        '\x7b' :: (r.takeWhile isJWs ++ '"' :: (pre_m ++ rest₂)) := by simp
                    rw [hin, parseValue.eq_3, if_neg (by decide), if_pos rfl,
                      skipWs_append_ws _ _ hwsw, skipWs_cons_of_not _ _ (by decide)]
                    simp only [hmrerun g' rest₂ hml]
              · next m heqm => exact absurd h (by simp)
            · next x hno1 hno2 => exact absurd h (by simp)
          · rw [if_neg h2] at h
            by_cases h3 : c = '['
            · subst h3
              rw [if_pos rfl] at h
              obtain ⟨hspl, hwsw⟩ := skipWs_split r
              split at h
              · next x rest' heq =>
                rw [Except.ok.injEq, Prod.mk.injEq] at h
                obtain ⟨hv, hrest⟩ := h
                subst hv
                rw [hrest] at heq
                refine ⟨'[' :: (r.takeWhile isJWs ++ [']']), ?_, by simp, ?_, ?_⟩
                · conv_lhs => rw [hspl]
                  rw [heq]
                  simp
                · intro kvs hk
                  simp at hk
                · intro g rest₂ hg hbr hbr₂
                  cases g with
                  | zero => exact absurd hg (Nat.not_lt_zero _)
                  | succ g' =>
                    have hin : ('[' :: (r.takeWhile isJWs ++ [']'])) ++ rest₂ =
                        '[' :: (r.takeWhile isJWs ++ ']' :: rest₂) := by simp
                    rw [hin, parseValue.eq_3, if_neg (by decide), if_neg (by decide),
                      if_pos rfl, skipWs_append_ws _ _ hwsw,
                      skipWs_cons_of_not _ _ (by decide)]
                    rfl
              · next x hno =>
                split at h
                · next vs' rest' heqe =>
                  rw [Except.ok.injEq, Prod.mk.injEq] at h
                  obtain ⟨hv, hrest⟩ := h
                  subst hv
                  rw [hrest] at heqe
                  obtain ⟨pre_e, hed, ⟨qe, hqe⟩, hererun⟩ := ihE (skipWs r) vs' rest heqe
                  have hpe_ne : pre_e ≠ [] := by
                    rw [hqe]
                    simp
                  obtain ⟨pe₀, pe', rfl⟩ : ∃ a t, pre_e = a :: t := by
                    cases pre_e with
                    | nil => exact absurd rfl hpe_ne
                    | cons a t => exact ⟨a, t, rfl⟩
                  have hed' : skipWs r = pe₀ :: (pe' ++ rest) := by
                    rw [hed]
                    rfl
                  have hpe₀ws : isJWs pe₀ = false :=
                    skipWs_head_false r pe₀ (pe' ++ rest) hed'
                  have hpe₀ne : ¬pe₀ = ']' := by
                    intro hcontra
                    exact hno (pe' ++ rest) (by rw [hed', hcontra])
                  refine ⟨'[' :: (r.takeWhile isJWs ++ (pe₀ :: pe')), ?_, by simp, ?_, ?_⟩
                  · conv_lhs => rw [hspl]
                    rw [hed']
                    simp
                  · intro kvs hk
                    simp at hk
                  · intro g rest₂ hg hbr hbr₂
                    cases g with
                    | zero => exact absurd hg (Nat.not_lt_zero _)
                    | succ g' =>
                      have hel : (pe₀ :: pe').length < g' := by
                        simp only [List.length_cons, List.length_append] at hg ⊢
                        omega
                      have hin : ('[' :: (r.takeWhile isJWs ++ (pe₀ :: pe'))) ++ rest₂ =
                          '[' :: (r.takeWhile isJWs ++ (pe₀ :: (pe' ++ rest₂))) := by simp
                      rw [hin, parseValue.eq_3, if_neg (by decide), if_neg (by decide),
                        if_pos rfl, skipWs_append_ws _ _ hwsw,
                        skipWs_cons_of_not _ _ hpe₀ws]
                      have he := hererun g' rest₂ hel
                      rw [List.cons_append] at he
                      split
                      · next rest₃ heq₂ =>
                        rw [List.cons.injEq] at heq₂
                        exact absurd heq₂.1 hpe₀ne
                      · next t hno₂ =>
                        simp only [he]
                · next m heqe => exact absurd h (by simp)
            · rw [if_neg h3] at h
              by_cases h4 : c = 'n'
              · subst h4
                rw [if_pos rfl] at h
                split at h
                · next rest' heq =>
                  rw [Except.ok.injEq, Prod.mk.injEq] at h
                  obtain ⟨hv, hrest⟩ := h
                  subst hv
                  rw [hrest] at heq
                  have hdec := stripPre_eq_some "ull".data r rest heq
                  refine ⟨'n' :: "ull".data, by rw [hdec]; simp, by simp, ?_, ?_⟩
                  · intro kvs hk
                    simp at hk
                  · intro g rest₂ hg hbr hbr₂
                    cases g with
                    | zero => exact absurd hg (Nat.not_lt_zero _)
                    | succ g' =>
                      have hin : ('n' :: "ull".data) ++ rest₂ =
                          'n' :: ("ull".data ++ rest₂) := by simp
                      rw [hin, parseValue.eq_3, if_neg (by decide), if_neg (by decide),
                        if_neg (by decide), if_pos rfl, stripPre_append]
                · next heq => exact absurd h (by simp)
              · rw [if_neg h4] at h
                by_cases h5 : c = 't'
                · subst h5
                  rw [if_pos rfl] at h
                  split at h
                  · next rest' heq =>
                    rw [Except.ok.injEq, Prod.mk.injEq] at h
                    obtain ⟨hv, hrest⟩ := h
                    subst hv
                    rw [hrest] at heq
                    have hdec := stripPre_eq_some "rue".data r rest heq
                    refine ⟨'t' :: "rue".data, by rw [hdec]; simp, by simp, ?_, ?_⟩
                    · intro kvs hk
                      simp at hk
                    · intro g rest₂ hg hbr hbr₂
                      cases g with
                      | zero => exact absurd hg (Nat.not_lt_zero _)
                      | succ g' =>
                        have hin : ('t' :: "rue".data) ++ rest₂ =
                            't' :: ("rue".data ++ rest₂) := by simp
                        rw [hin, parseValue.eq_3, if_neg (by decide), if_neg (by decide),
                          if_neg (by decide), if_neg (by decide), if_pos rfl,
                          stripPre_append]
                  · next heq => exact absurd h (by simp)
                · rw [if_neg h5] at h
                  by_cases h6 : c = 'f'
                  · subst h6
                    rw [if_pos rfl] at h
                    split at h
                    · next rest' heq =>
                      rw [Except.ok.injEq, Prod.mk.injEq] at h
                      obtain ⟨hv, hrest⟩ := h
                      subst hv
                      rw [hrest] at heq
                      have hdec := stripPre_eq_some "alse".data r rest heq
                      refine ⟨'f' :: "alse".data, by rw [hdec]; simp, by simp, ?_, ?_⟩
                      · intro kvs hk
                        simp at hk
                      · intro g rest₂ hg hbr hbr₂
                        cases g with
                        | zero => exact absurd hg (Nat.not_lt_zero _)
                        | succ g' =>
                          have hin : ('f' :: "alse".data) ++ rest₂ =
                              'f' :: ("alse".data ++ rest₂) := by simp
                          rw [hin, parseValue.eq_3, if_neg (by decide), if_neg (by decide),
                            if_neg (by decide), if_neg (by decide), if_neg (by decide),
                            if_pos rfl, stripPre_append]
                    · next heq => exact absurd h (by simp)
                  · rw [if_neg h6] at h
                    by_cases h7 : c = 'N'
                    · subst h7
                      rw [if_pos rfl] at h
                      split at h
                      · next rest' heq =>
                        rw [Except.ok.injEq, Prod.mk.injEq] at h
                        obtain ⟨hv, hrest⟩ := h
                        subst hv
                        rw [hrest] at heq
                        have hdec := stripPre_eq_some "aN".data r rest heq
                        refine ⟨'N' :: "aN".data, by rw [hdec]; simp, by simp, ?_, ?_⟩
                        · intro kvs hk
                          simp at hk
                        · intro g rest₂ hg hbr hbr₂
                          cases g with
                          | zero => exact absurd hg (Nat.not_lt_zero _)
                          | succ g' =>
                            have hin : ('N' :: "aN".data) ++ rest₂ =
                                'N' :: ("aN".data ++ rest₂) := by simp
                            rw [hin, parseValue.eq_3, if_neg (by decide), if_neg (by decide),
                              if_neg (by decide), if_neg (by decide), if_neg (by decide),
                              if_neg (by decide), if_pos rfl, stripPre_append]
                      · next heq => exact absurd h (by simp)
                    · rw [if_neg h7] at h
                      by_cases h8 : c = 'I'
                      · subst h8
                        rw [if_pos rfl] at h
                        split at h
                        · next rest' heq =>
                          rw [Except.ok.injEq, Prod.mk.injEq] at h
                          obtain ⟨hv, hrest⟩ := h
                          subst hv
                          rw [hrest] at heq
                          have hdec := stripPre_eq_some "nfinity".data r rest heq
                          refine ⟨'I' :: "nfinity".data, by rw [hdec]; simp, by simp, ?_, ?_⟩
                          · intro kvs hk
                            simp at hk
                          · intro g rest₂ hg hbr hbr₂
                            cases g with
                            | zero => exact absurd hg (Nat.not_lt_zero _)
                            | succ g' =>
                              have hin : ('I' :: "nfinity".data) ++ rest₂ =
                                  'I' :: ("nfinity".data ++ rest₂) := by simp
                              rw [hin, parseValue.eq_3, if_neg (by decide), if_neg (by decide),
                                if_neg (by decide), if_neg (by decide), if_neg (by decide),
                                if_neg (by decide), if_neg (by decide), if_pos rfl,
                                stripPre_append]
                        · next heq => exact absurd h (by simp)
                      · rw [if_neg h8] at h
                        by_cases h9 : c = '-'
                        · subst h9
                          rw [if_pos rfl] at h
                          split at h
                          · next lex rest' heqn =>
                            rw [Except.ok.injEq, Prod.mk.injEq] at h
                            obtain ⟨hv, hrest⟩ := h
                            subst hv
                            rw [hrest] at heqn
                            obtain ⟨hdec, hlne, hnrerun⟩ := parseNum_master ('-' :: r) lex rest heqn
                            obtain ⟨bs, rfl⟩ : ∃ bs, lex = '-' :: bs := by
                              cases lex with
                              | nil => exact absurd rfl hlne
                              | cons b bs =>
                                rw [List.cons_append, List.cons.injEq] at hdec
                                exact ⟨bs, by rw [hdec.1]⟩
                            refine ⟨'-' :: bs, hdec, by simp, ?_, ?_⟩
                            · intro kvs hk
                              simp at hk
                            · intro g rest₂ hg hbr hbr₂
                              cases g with
                              | zero => exact absurd hg (Nat.not_lt_zero _)
                              | succ g' =>
                                have hin : ('-' :: bs) ++ rest₂ = '-' :: (bs ++ rest₂) := by
                                  simp
                                rw [hin, parseValue.eq_3, if_neg (by decide), if_neg (by decide),
                                  if_neg (by decide), if_neg (by decide), if_neg (by decide),
                                  if_neg (by decide), if_neg (by decide), if_neg (by decide),
                                  if_pos rfl]
                                have hn := hnrerun rest₂ hbr₂
                                rw [List.cons_append] at hn
                                simp only [hn]
                          · next m heqn =>
                            split at h
                            · next rest' heqi =>
                              rw [Except.ok.injEq, Prod.mk.injEq] at h
                              obtain ⟨hv, hrest⟩ := h
                              subst hv
                              rw [hrest] at heqi
                              have hdec := stripPre_eq_some "Infinity".data r rest heqi
                              refine ⟨'-' :: "Infinity".data, by rw [hdec]; simp, by simp, ?_, ?_⟩
                              · intro kvs hk
                                simp at hk
                              · intro g rest₂ hg hbr hbr₂
                                cases g with
                                | zero => exact absurd hg (Nat.not_lt_zero _)
                                | succ g' =>
                                  have hin : ('-' :: "Infinity".data) ++ rest₂ =
                                      '-' :: ("Infinity".data ++ rest₂) := by simp
                                  rw [hin, parseValue.eq_3, if_neg (by decide), if_neg (by decide),
                                    if_neg (by decide), if_neg (by decide), if_neg (by decide),
                                    if_neg (by decide), if_neg (by decide), if_neg (by decide),
                                    if_pos rfl]
                                  have hpn : parseNum ('-' :: ("Infinity".data ++ rest₂)) =
                                      .error "Expecting value" := by
                                    show parseNumBody ['-'] ("Infinity".data ++ rest₂) = _
                                    show parseNumBody ['-'] ('I' :: ("nfinity".data ++ rest₂)) = _
                                    exact parseNumBody_err ['-'] 'I' _ (by decide) (by decide)
                                  simp only [hpn, stripPre_append]
                            · next heqi => exact absurd h (by simp)
                        · rw [if_neg h9] at h
                          split at h
                          · next lex rest' heqn =>
                            rw [Except.ok.injEq, Prod.mk.injEq] at h
                            obtain ⟨hv, hrest⟩ := h
                            subst hv
                            rw [hrest] at heqn
                            obtain ⟨hdec, hlne, hnrerun⟩ := parseNum_master (c :: r) lex rest heqn
                            obtain ⟨bs, rfl⟩ : ∃ bs, lex = c :: bs := by
                              cases lex with
                              | nil => exact absurd rfl hlne
                              | cons b bs =>
                                rw [List.cons_append, List.cons.injEq] at hdec
                                exact ⟨bs, by rw [hdec.1]⟩
                            refine ⟨c :: bs, hdec, by simp, ?_, ?_⟩
                            · intro kvs hk
                              simp at hk
                            · intro g rest₂ hg hbr hbr₂
                              cases g with
                              | zero => exact absurd hg (Nat.not_lt_zero _)
                              | succ g' =>
                                have hin : (c :: bs) ++ rest₂ = c :: (bs ++ rest₂) := by simp
                                rw [hin, parseValue.eq_3, if_neg h1, if_neg h2, if_neg h3,
                                  if_neg h4, if_neg h5, if_neg h6, if_neg h7, if_neg h8,
                                  if_neg h9]
                                have hn := hnrerun rest₂ hbr₂
                                rw [List.cons_append] at hn
                                simp only [hn]
                          · next m heqn => exact absurd h (by simp)
    · -- parseMembers
      intro cs kvs rest h
      rw [parseMembers.eq_2] at h
      split at h
      · next m heqs => exact absurd h (by simp)
      · next k r₁ heqs =>
        split at h
        · next x r₂ heq₁ =>
          split at h
          · next m heqv => exact absurd h (by simp)
          · next v r₃ heqv =>
            split at h
            · next x₂ r₄ heq₃ =>
              split at h
              · next x₃ r₅ heq₄ =>
                split at h
                · next kvs' rest' heqm =>
                  rw [Except.ok.injEq, Prod.mk.injEq] at h
                  obtain ⟨hkv, hrest⟩ := h
                  subst hkv
                  rw [hrest] at heqm
                  obtain ⟨hsd, hsrerun⟩ := parseStrF_master f cs k r₁ heqs
                  obtain ⟨pre_v, hvd, hvne, hvobj, hvrerun⟩ := ihV (skipWs r₂) v r₃ heqv
                  obtain ⟨pre_m, hmd, ⟨qm, hqm⟩, hmrerun⟩ := ihM r₅ kvs' rest heqm
                  obtain ⟨pv₀, pv', rfl⟩ : ∃ a t, pre_v = a :: t := by
                    cases pre_v with
                    | nil => exact absurd rfl hvne
                    | cons a t => exact ⟨a, t, rfl⟩
                  have hvd' : skipWs r₂ = pv₀ :: (pv' ++ r₃) := by
                    rw [hvd]
                    rfl
                  have hpvws : isJWs pv₀ = false := skipWs_head_false r₂ pv₀ (pv' ++ r₃) hvd'
                  obtain ⟨W₁, hW₁, hW₁ws⟩ : ∃ w, r₁ = w ++ ':' :: r₂ ∧
                      ∀ x ∈ w, isJWs x = true := by
                    refine ⟨r₁.takeWhile isJWs, ?_, (skipWs_split r₁).2⟩
                    conv_lhs => rw [(skipWs_split r₁).1]
                    rw [heq₁]
                  obtain ⟨W₂, hW₂, hW₂ws⟩ : ∃ w, r₂ = w ++ ((pv₀ :: pv') ++ r₃) ∧
                      ∀ x ∈ w, isJWs x = true := by
                    refine ⟨r₂.takeWhile isJWs, ?_, (skipWs_split r₂).2⟩
                    conv_lhs => rw [(skipWs_split r₂).1]
                    rw [hvd]
                  obtain ⟨W₃, hW₃, hW₃ws⟩ : ∃ w, r₃ = w ++ ',' :: r₄ ∧
                      ∀ x ∈ w, isJWs x = true := by
                    refine ⟨r₃.takeWhile isJWs, ?_, (skipWs_split r₃).2⟩
                    conv_lhs => rw [(skipWs_split r₃).1]
                    rw [heq₃]
                  obtain ⟨W₄, hW₄, hW₄ws⟩ : ∃ w, r₄ = w ++ '"' :: r₅ ∧
                      ∀ x ∈ w, isJWs x = true := by
                    refine ⟨r₄.takeWhile isJWs, ?_, (skipWs_split r₄).2⟩
                    conv_lhs => rw [(skipWs_split r₄).1]
                    rw [heq₄]
                  refine ⟨k ++ '"' :: (W₁ ++ ':' :: (W₂ ++ ((pv₀ :: pv') ++ (W₃ ++ ',' ::
                    (W₄ ++ '"' :: pre_m))))), ?_, ?_, ?_⟩
                  · rw [hsd, hW₁, hW₂, hW₃, hW₄, hmd]
                    simp
                  · refine ⟨k ++ '"' :: (W₁ ++ ':' :: (W₂ ++ ((pv₀ :: pv') ++ (W₃ ++ ',' ::
                      (W₄ ++ '"' :: qm))))), ?_⟩
                    rw [hqm]
                    simp
                  · intro g rest₂ hg
                    cases g with
                    | zero => exact absurd hg (Nat.not_lt_zero _)
                    | succ g' =>
                      have hkl : k.length < g' := by
                        simp only [List.length_append, List.length_cons] at hg
                        omega
                      have hvl : (pv₀ :: pv').length < g' := by
                        simp only [List.length_append, List.length_cons] at hg ⊢
                        omega
                      have hml : pre_m.length < g' := by
                        simp only [List.length_append, List.length_cons] at hg
                        omega
                      have hin : (k ++ '"' :: (W₁ ++ ':' :: (W₂ ++ ((pv₀ :: pv') ++ (W₃ ++
                          ',' :: (W₄ ++ '"' :: pre_m)))))) ++ rest₂ =
                          k ++ '"' :: (W₁ ++ ':' :: (W₂ ++ ((pv₀ :: pv') ++ (W₃ ++
                          ',' :: (W₄ ++ '"' :: (pre_m ++ rest₂)))))) := by
                        simp
                      rw [hin, parseMembers.eq_2]
                      have s1 := hsrerun g' (W₁ ++ ':' :: (W₂ ++ ((pv₀ :: pv') ++ (W₃ ++
                        ',' :: (W₄ ++ '"' :: (pre_m ++ rest₂)))))) hkl
                      have s2 : skipWs (W₁ ++ ':' :: (W₂ ++ ((pv₀ :: pv') ++ (W₃ ++
                          ',' :: (W₄ ++ '"' :: (pre_m ++ rest₂)))))) =
                          ':' :: (W₂ ++ ((pv₀ :: pv') ++ (W₃ ++
                          ',' :: (W₄ ++ '"' :: (pre_m ++ rest₂))))) := by
                        rw [skipWs_append_ws _ _ hW₁ws, skipWs_cons_of_not _ _ (by decide)]
                      have s3 : skipWs (W₂ ++ ((pv₀ :: pv') ++ (W₃ ++
                          ',' :: (W₄ ++ '"' :: (pre_m ++ rest₂))))) =
                          (pv₀ :: pv') ++ (W₃ ++ ',' :: (W₄ ++ '"' :: (pre_m ++ rest₂))) := by
                        rw [skipWs_append_ws _ _ hW₂ws, List.cons_append,
                          skipWs_cons_of_not _ _ hpvws]
                      have hbold : goodBoundary r₃ := by
                        rw [hW₃]
                        exact goodB_ws_cons _ _ _ hW₃ws (by decide)
                      have hbnew : goodBoundary (W₃ ++ ',' :: (W₄ ++ '"' ::
                          (pre_m ++ rest₂))) :=
                        goodB_ws_cons _ _ _ hW₃ws (by decide)
                      have s4 : parseValue g' ((pv₀ :: pv') ++ (W₃ ++ ',' :: (W₄ ++ '"' ::
                          (pre_m ++ rest₂)))) = .ok (v, W₃ ++ ',' :: (W₄ ++ '"' ::
                          (pre_m ++ rest₂))) :=
                        hvrerun g' _ hvl hbold hbnew
                      have s5 : skipWs (W₃ ++ ',' :: (W₄ ++ '"' :: (pre_m ++ rest₂))) =
                          ',' :: (W₄ ++ '"' :: (pre_m ++ rest₂)) := by
                        rw [skipWs_append_ws _ _ hW₃ws, skipWs_cons_of_not _ _ (by decide)]
                      have s6 : skipWs (W₄ ++ '"' :: (pre_m ++ rest₂)) =
                          '"' :: (pre_m ++ rest₂) := by
                        rw [skipWs_append_ws _ _ hW₄ws, skipWs_cons_of_not _ _ (by decide)]
                      have s7 := hmrerun g' rest₂ hml
                      simp only [s1, s2, s3, s4, s5, s6, s7]
                · next m heqm => exact absurd h (by simp)
              · next x₃ hno => exact absurd h (by simp)
            · next x₂ rest' heq₃ =>
              rw [Except.ok.injEq, Prod.mk.injEq] at h
              obtain ⟨hkv, hrest⟩ := h
              subst hkv
              rw [hrest] at heq₃
              obtain ⟨hsd, hsrerun⟩ := parseStrF_master f cs k r₁ heqs
              obtain ⟨pre_v, hvd, hvne, hvobj, hvrerun⟩ := ihV (skipWs r₂) v r₃ heqv
              obtain ⟨pv₀, pv', rfl⟩ : ∃ a t, pre_v = a :: t := by
                cases pre_v with
                | nil => exact absurd rfl hvne
                | cons a t => exact ⟨a, t, rfl⟩
              have hvd' : skipWs r₂ = pv₀ :: (pv' ++ r₃) := by
                rw [hvd]
                rfl
              have hpvws : isJWs pv₀ = false := skipWs_head_false r₂ pv₀ (pv' ++ r₃) hvd'
              obtain ⟨W₁, hW₁, hW₁ws⟩ : ∃ w, r₁ = w ++ ':' :: r₂ ∧
                  ∀ x ∈ w, isJWs x = true := by
                refine ⟨r₁.takeWhile isJWs, ?_, (skipWs_split r₁).2⟩
                conv_lhs => rw [(skipWs_split r₁).1]
                rw [heq₁]
              obtain ⟨W₂, hW₂, hW₂ws⟩ : ∃ w, r₂ = w ++ ((pv₀ :: pv') ++ r₃) ∧
                  ∀ x ∈ w, isJWs x = true := by
                refine ⟨r₂.takeWhile isJWs, ?_, (skipWs_split r₂).2⟩
                conv_lhs => rw [(skipWs_split r₂).1]
                rw [hvd]
              obtain ⟨W₃, hW₃, hW₃ws⟩ : ∃ w, r₃ = w ++ '\x7d' :: rest ∧
                  ∀ x ∈ w, isJWs x = true := by
                refine ⟨r₃.takeWhile isJWs, ?_, (skipWs_split r₃).2⟩
                conv_lhs => rw [(skipWs_split r₃).1]
                rw [heq₃]
              refine ⟨k ++ '"' :: (W₁ ++ ':' :: (W₂ ++ ((pv₀ :: pv') ++ (W₃ ++
                ['\x7d'])))), ?_, ?_, ?_⟩
              · rw [hsd, hW₁, hW₂, hW₃]
                simp
              · exact ⟨k ++ '"' :: (W₁ ++ ':' :: (W₂ ++ ((pv₀ :: pv') ++ W₃))), by simp⟩
              · intro g rest₂ hg
                cases g with
                | zero => exact absurd hg (Nat.not_lt_zero _)
                | succ g' =>
                  have hkl : k.length < g' := by
                    simp only [List.length_append, List.length_cons] at hg
                    omega
                  have hvl : (pv₀ :: pv').length < g' := by
                    simp only [List.length_append, List.length_cons] at hg ⊢
                    omega
                  have hin : (k ++ '"' :: (W₁ ++ ':' :: (W₂ ++ ((pv₀ :: pv') ++ (W₃ ++
                      ['\x7d']))))) ++ rest₂ =
                      k ++ '"' :: (W₁ ++ ':' :: (W₂ ++ ((pv₀ :: pv') ++ (W₃ ++
                      '\x7d' :: rest₂)))) := by
                    simp
                  rw [hin, parseMembers.eq_2]
                  have s1 := hsrerun g' (W₁ ++ ':' :: (W₂ ++ ((pv₀ :: pv') ++ (W₃ ++
                    '\x7d' :: rest₂)))) hkl
                  have s2 : skipWs (W₁ ++ ':' :: (W₂ ++ ((pv₀ :: pv') ++ (W₃ ++
                      '\x7d' :: rest₂)))) =
                      ':' :: (W₂ ++ ((pv₀ :: pv') ++ (W₃ ++ '\x7d' :: rest₂))) := by
                    rw [skipWs_append_ws _ _ hW₁ws, skipWs_cons_of_not _ _ (by decide)]
                  have s3 : skipWs (W₂ ++ ((pv₀ :: pv') ++ (W₃ ++ '\x7d' :: rest₂))) =
                      (pv₀ :: pv') ++ (W₃ ++ '\x7d' :: rest₂) := by
                    rw [skipWs_append_ws _ _ hW₂ws, List.cons_append,
                      skipWs_cons_of_not _ _ hpvws]
                  have hbold : goodBoundary r₃ := by
                    rw [hW₃]
                    exact goodB_ws_cons _ _ _ hW₃ws (by decide)
                  have hbnew : goodBoundary (W₃ ++ '\x7d' :: rest₂) :=
                    goodB_ws_cons _ _ _ hW₃ws (by decide)
                  have s4 : parseValue g' ((pv₀ :: pv') ++ (W₃ ++ '\x7d' :: rest₂)) =
                      .ok (v, W₃ ++ '\x7d' :: rest₂) :=
                    hvrerun g' _ hvl hbold hbnew
                  have s5 : skipWs (W₃ ++ '\x7d' :: rest₂) = '\x7d' :: rest₂ := by
                    rw [skipWs_append_ws _ _ hW₃ws, skipWs_cons_of_not _ _ (by decide)]
                  simp only [s1, s2, s3, s4, s5]
            · next x₂ hno1 hno2 => exact absurd h (by simp)
        · next x hno => exact absurd h (by simp)
    · -- parseElements
      intro cs vs rest h
      rw [parseElements.eq_2] at h
      split at h
      · next m heqv => exact absurd h (by simp)
      · next v r₁ heqv =>
        split at h
        · next x r₂ heq₁ =>
          split at h
          · next vs' rest' heqe =>
            rw [Except.ok.injEq, Prod.mk.injEq] at h
            obtain ⟨hv, hrest⟩ := h
            subst hv
            rw [hrest] at heqe
            obtain ⟨pre_v, hvd, hvne, hvobj, hvrerun⟩ := ihV cs v r₁ heqv
            obtain ⟨pre_e, hed, ⟨qe, hqe⟩, hererun⟩ := ihE (skipWs r₂) vs' rest heqe
            have hpe_ne : pre_e ≠ [] := by
              rw [hqe]
              simp
            obtain ⟨pe₀, pe', rfl⟩ : ∃ a t, pre_e = a :: t := by
              cases pre_e with
              | nil => exact absurd rfl hpe_ne
              | cons a t => exact ⟨a, t, rfl⟩
            have hed' : skipWs r₂ = pe₀ :: (pe' ++ rest) := by
              rw [hed]
              rfl
            have hpews : isJWs pe₀ = false := skipWs_head_false r₂ pe₀ (pe' ++ rest) hed'
            obtain ⟨W₁, hW₁, hW₁ws⟩ : ∃ w, r₁ = w ++ ',' :: r₂ ∧
                ∀ x ∈ w, isJWs x = true := by
              refine ⟨r₁.takeWhile isJWs, ?_, (skipWs_split r₁).2⟩
              conv_lhs => rw [(skipWs_split r₁).1]
              rw [heq₁]
            obtain ⟨W₂, hW₂, hW₂ws⟩ : ∃ w, r₂ = w ++ ((pe₀ :: pe') ++ rest) ∧
                ∀ x ∈ w, isJWs x = true := by
              refine ⟨r₂.takeWhile isJWs, ?_, (skipWs_split r₂).2⟩
              conv_lhs => rw [(skipWs_split r₂).1]
              rw [hed]
            refine ⟨pre_v ++ (W₁ ++ ',' :: (W₂ ++ (pe₀ :: pe'))), ?_, ?_, ?_⟩
            · rw [hvd, hW₁, hW₂]
              simp
            · exact ⟨pre_v ++ (W₁ ++ ',' :: (W₂ ++ qe)), by rw [hqe]; simp⟩
            · intro g rest₂ hg
              cases g with
              | zero => exact absurd hg (Nat.not_lt_zero _)
              | succ g' =>
                have hvl : pre_v.length < g' := by
                  simp only [List.length_append, List.length_cons] at hg
                  omega
                have hel : (pe₀ :: pe').length < g' := by
                  simp only [List.length_append, List.length_cons] at hg ⊢
                  omega
                have hin : (pre_v ++ (W₁ ++ ',' :: (W₂ ++ (pe₀ :: pe')))) ++ rest₂ =
                    pre_v ++ (W₁ ++ ',' :: (W₂ ++ (pe₀ :: (pe' ++ rest₂)))) := by
                  simp
                rw [hin, parseElements.eq_2]
                have hbold : goodBoundary r₁ := by
                  rw [hW₁]
                  exact goodB_ws_cons _ _ _ hW₁ws (by decide)
                have hbnew : goodBoundary (W₁ ++ ',' :: (W₂ ++ (pe₀ :: (pe' ++ rest₂)))) :=
                  goodB_ws_cons _ _ _ hW₁ws (by decide)
                have s1 : parseValue g' (pre_v ++ (W₁ ++ ',' :: (W₂ ++ (pe₀ ::
                    (pe' ++ rest₂))))) = .ok (v, W₁ ++ ',' :: (W₂ ++ (pe₀ ::
                    (pe' ++ rest₂)))) :=
                  hvrerun g' _ hvl hbold hbnew
                have s2 : skipWs (W₁ ++ ',' :: (W₂ ++ (pe₀ :: (pe' ++ rest₂)))) =
                    ',' :: (W₂ ++ (pe₀ :: (pe' ++ rest₂))) := by
                  rw [skipWs_append_ws _ _ hW₁ws, skipWs_cons_of_not _ _ (by decide)]
                have s3 : skipWs (W₂ ++ (pe₀ :: (pe' ++ rest₂))) =
                    pe₀ :: (pe' ++ rest₂) := by
                  rw [skipWs_append_ws _ _ hW₂ws, skipWs_cons_of_not _ _ hpews]
                have s4 : parseElements g' (pe₀ :: (pe' ++ rest₂)) = .ok (vs', rest₂) := by
                  have := hererun g' rest₂ hel
                  rw [List.cons_append] at this
                  exact this
                simp only [s1, s2, s3, s4]
          · next m heqe => exact absurd h (by simp)
        · next x rest' heq₁ =>
          rw [Except.ok.injEq, Prod.mk.injEq] at h
          obtain ⟨hv, hrest⟩ := h
          subst hv
          rw [hrest] at heq₁
          obtain ⟨pre_v, hvd, hvne, hvobj, hvrerun⟩ := ihV cs v r₁ heqv
          obtain ⟨W₁, hW₁, hW₁ws⟩ : ∃ w, r₁ = w ++ ']' :: rest ∧
              ∀ x ∈ w, isJWs x = true := by
            refine ⟨r₁.takeWhile isJWs, ?_, (skipWs_split r₁).2⟩
            conv_lhs => rw [(skipWs_split r₁).1]
            rw [heq₁]
          refine ⟨pre_v ++ (W₁ ++ [']']), ?_, ⟨pre_v ++ W₁, by simp⟩, ?_⟩
          · rw [hvd, hW₁]
            simp
          · intro g rest₂ hg
            cases g with
            | zero => exact absurd hg (Nat.not_lt_zero _)
            | succ g' =>
              have hvl : pre_v.length < g' := by
                simp only [List.length_append, List.length_cons] at hg
                omega
              have hin : (pre_v ++ (W₁ ++ [']'])) ++ rest₂ =
                  pre_v ++ (W₁ ++ ']' :: rest₂) := by
                simp
              rw [hin, parseElements.eq_2]
              have hbold : goodBoundary r₁ := by
                rw [hW₁]
                exact goodB_ws_cons _ _ _ hW₁ws (by decide)
              have hbnew : goodBoundary (W₁ ++ ']' :: rest₂) :=
                goodB_ws_cons _ _ _ hW₁ws (by decide)
              have s1 : parseValue g' (pre_v ++ (W₁ ++ ']' :: rest₂)) =
                  .ok (v, W₁ ++ ']' :: rest₂) :=
                hvrerun g' _ hvl hbold hbnew
              have s2 : skipWs (W₁ ++ ']' :: rest₂) = ']' :: rest₂ := by
                rw [skipWs_append_ws _ _ hW₁ws, skipWs_cons_of_not _ _ (by decide)]
              simp only [s1, s2]
        · next x hno1 hno2 => exact absurd h (by simp)

/-! ## Slice-stage lemmas for the brace span -/

/-- str.find locates the first occurrence. -/
theorem findIdxCh_first (c : Char) (a t : List Char)
    (ha : ∀ x ∈ a, ¬x = c) : findIdxCh c (a ++ c :: t) = some a.length := by
  induction a with
  | nil => simp [findIdxCh]
  | cons x xs ih =>
    have hx : ¬x = c := ha x (List.mem_cons_self x xs)
    have ih' := ih (fun y hy => ha y (List.mem_cons_of_mem x hy))
    show (if x = c then some 0 else (findIdxCh c (xs ++ c :: t)).map (· + 1)) =
      some (x :: xs).length
    rw [if_neg hx, ih']
    rfl

/-- str.rfind locates the last occurrence. -/
theorem rfindIdxCh_last (c : Char) (a t : List Char)
    (ht : ∀ x ∈ t, ¬x = c) : rfindIdxCh c (a ++ c :: t) = some a.length := by
  have hrev : (a ++ c :: t).reverse = t.reverse ++ c :: a.reverse := by
    simp
  have hf : findIdxCh c ((a ++ c :: t).reverse) = some t.reverse.length := by
    rw [hrev]
    exact findIdxCh_first c t.reverse a.reverse
      (fun x hx => ht x (List.mem_reverse.mp hx))
  show (findIdxCh c ((a ++ c :: t).reverse)).map
    (fun i => (a ++ c :: t).length - 1 - i) = some a.length
  rw [hf]
  show some ((a ++ c :: t).length - 1 - t.reverse.length) = some a.length
  congr 1
  simp only [List.length_reverse, List.length_append, List.length_cons]
  omega

/-- The brace-span slice of a json object wrapped in left prose without an
opening brace and right prose without a closing brace is the object span
itself. -/
theorem jsonTextOf_wrapped (a mid b : List Char)
    (ha : ∀ x ∈ a, ¬x = '\x7b') (hb : ∀ x ∈ b, ¬x = '\x7d') :
    jsonTextOf (a ++ '\x7b' :: (mid ++ '\x7d' :: b)) = '\x7b' :: (mid ++ ['\x7d']) := by
  have hfind : findIdxCh '\x7b' (a ++ '\x7b' :: (mid ++ '\x7d' :: b)) = some a.length :=
    findIdxCh_first '\x7b' a (mid ++ '\x7d' :: b) ha
  have hassoc : a ++ '\x7b' :: (mid ++ '\x7d' :: b) = (a ++ '\x7b' :: mid) ++ '\x7d' :: b := by
    simp
  have hrfind : rfindIdxCh '\x7d' (a ++ '\x7b' :: (mid ++ '\x7d' :: b)) =
      some (a ++ '\x7b' :: mid).length := by
    rw [hassoc]
    exact rfindIdxCh_last '\x7d' (a ++ '\x7b' :: mid) b hb
  have hlt : a.length < (a ++ '\x7b' :: mid).length := by
    simp only [List.length_append, List.length_cons]
    omega
  simp only [jsonTextOf, hfind, hrfind, if_pos hlt]
  show ((a ++ '\x7b' :: (mid ++ '\x7d' :: b)).drop a.length).take
    ((a ++ '\x7b' :: mid).length + 1 - a.length) = _
  rw [List.drop_left]
  have hn : (a ++ '\x7b' :: mid).length + 1 - a.length = mid.length + 2 := by
    simp only [List.length_append, List.length_cons]
    omega
  rw [hn]
  have h2 : ('\x7b' :: (mid ++ '\x7d' :: b)).take (mid.length + 2) =
      '\x7b' :: ((mid ++ '\x7d' :: b).take (mid.length + 1)) := rfl
  rw [h2]
  have h3 : (mid ++ '\x7d' :: b).take (mid.length + 1) = mid ++ ('\x7d' :: b).take 1 :=
    List.take_append 1
  rw [h3]
  rfl

/-- dropWhile cannot pass a failing separator. -/
theorem dropWhile_append_not (p : Char → Bool) (X Y : List Char) (d : Char)
    (hd : p d = false) :
    (X ++ d :: Y).dropWhile p = X.dropWhile p ++ d :: Y := by
  induction X with
  | nil => simp [List.dropWhile_cons, hd]
  | cons x xs ih =>
    by_cases hx : p x = true
    · simp [List.dropWhile_cons, hx, ih]
    · have hx' : p x = false := by
        cases h : p x
        · rfl
        · exact absurd h hx
      simp [List.dropWhile_cons, hx']

/-- dropTrail cannot pass a failing separator. -/
theorem dropTrail_append_not (p : Char → Bool) (X Y : List Char) (d : Char)
    (hd : p d = false) :
    dropTrail p (X ++ d :: Y) = X ++ d :: dropTrail p Y := by
  simp only [dropTrail]
  have hrev : (X ++ d :: Y).reverse = Y.reverse ++ d :: X.reverse := by
    simp
  rw [hrev, dropWhile_append_not p Y.reverse X.reverse d hd]
  simp

/-- Python strip around a brace-delimited span strips each side of the span
separately. -/
theorem pyStripL_wrapped (A mid B : List Char) :
    pyStripL (A ++ '\x7b' :: (mid ++ '\x7d' :: B)) =
      A.dropWhile isPySpace ++ '\x7b' :: (mid ++ '\x7d' :: dropTrail isPySpace B) := by
  simp only [pyStripL]
  rw [dropWhile_append_not isPySpace A ((mid ++ '\x7d' :: B)) '\x7b' (by decide)]
  have hassoc : A.dropWhile isPySpace ++ '\x7b' :: (mid ++ '\x7d' :: B) =
      (A.dropWhile isPySpace ++ '\x7b' :: mid) ++ '\x7d' :: B := by
    simp
  rw [hassoc, dropTrail_append_not isPySpace (A.dropWhile isPySpace ++ '\x7b' :: mid) B
    '\x7d' (by decide)]
  simp

/-- Membership survives dropWhile. -/
theorem mem_of_mem_dropWhile (p : Char → Bool) (l : List Char) (x : Char)
    (h : x ∈ l.dropWhile p) : x ∈ l := by
  induction l with
  | nil => simp at h
  | cons a as ih =>
    rw [List.dropWhile_cons] at h
    by_cases hp : p a = true
    · rw [if_pos hp] at h
      exact List.mem_cons_of_mem a (ih h)
    · rw [if_neg hp] at h
      exact h

/-- Membership survives dropTrail. -/
theorem mem_of_mem_dropTrail (p : Char → Bool) (l : List Char) (x : Char)
    (h : x ∈ dropTrail p l) : x ∈ l := by
  simp only [dropTrail, List.mem_reverse] at h
  exact List.mem_reverse.mp (mem_of_mem_dropWhile p l.reverse x h)

/-- A successful top-level object parse splits the input into leading
whitespace, a brace-delimited span and trailing whitespace, and the span
alone parses to the same object. -/
theorem loads_obj_span (cs : List Char) (kvs : List (String × Json))
    (h : loads cs = .ok (Json.obj kvs)) :
    ∃ w₁ mid w₂, cs = w₁ ++ '\x7b' :: (mid ++ '\x7d' :: w₂) ∧
      (∀ c ∈ w₁, isJWs c = true) ∧ (∀ c ∈ w₂, isJWs c = true) ∧
      loads ('\x7b' :: (mid ++ ['\x7d'])) = .ok (Json.obj kvs) := by
  unfold loads at h
  split at h
  · next m heq => exact absurd h (by simp)
  · next v rest heq =>
    split at h
    · next hnil =>
      rw [Except.ok.injEq] at h
      subst h
      obtain ⟨pre, hdec, hpne, hobj, hrerun⟩ :=
        (parse_master (cs.length + 1)).1 (skipWs cs) (Json.obj kvs) rest heq
      obtain ⟨mid, hpre⟩ := hobj kvs rfl
      refine ⟨cs.takeWhile isJWs, mid, rest, ?_, (skipWs_split cs).2,
        skipWs_nil_all rest hnil, ?_⟩
      · conv_lhs => rw [(skipWs_split cs).1]
        rw [hdec, hpre]
        simp
      · have hswpre : skipWs ('\x7b' :: (mid ++ ['\x7d'])) = '\x7b' :: (mid ++ ['\x7d']) :=
          skipWs_cons_of_not _ _ (by decide)
        have hrer := hrerun (('\x7b' :: (mid ++ ['\x7d'])).length + 1) []
          (by rw [hpre]; exact Nat.lt_succ_self _)
          (goodB_all_ws rest (skipWs_nil_all rest hnil)) goodB_nil
        rw [hpre, List.append_nil] at hrer
        unfold loads
        rw [hswpre, hrer]
        rfl
    · exact absurd h (by simp)

/-- C8: with the prose restricted so that its leading part holds no opening
brace and its trailing part holds no closing brace, the repairer on the
wrapped text agrees with the repairer on the bare json object text, and both
return the parsed object. -/
theorem c8_prose_wrapped (p₁ p₂ jl : List Char) (kvs : List (String × Json))
    (h1 : '\x7b' ∉ p₁) (h2 : '\x7d' ∉ p₂)
    (h3 : loads jl = .ok (Json.obj kvs)) :
    repairL (p₁ ++ jl ++ p₂) = repairL jl ∧ repairL jl = Json.obj kvs := by
  obtain ⟨w₁, mid, w₂, hjl, hw₁, hw₂, hpl⟩ := loads_obj_span jl kvs h3
  have hbare : repairL jl = Json.obj kvs := by
    rw [hjl]
    simp only [repairL]
    rw [pyStripL_wrapped w₁ mid w₂]
    rw [jsonTextOf_wrapped (w₁.dropWhile isPySpace) mid (dropTrail isPySpace w₂)
      (fun x hx heq => by
        have hm := hw₁ x (mem_of_mem_dropWhile isPySpace w₁ x hx)
        rw [heq] at hm
        exact absurd hm (by decide))
      (fun x hx heq => by
        have hm := hw₂ x (mem_of_mem_dropTrail isPySpace w₂ x hx)
        rw [heq] at hm
        exact absurd hm (by decide))]
    rw [hpl]
  have hwrap : repairL (p₁ ++ jl ++ p₂) = Json.obj kvs := by
    rw [hjl]
    have hsh : p₁ ++ (w₁ ++ '\x7b' :: (mid ++ '\x7d' :: w₂)) ++ p₂ =
        (p₁ ++ w₁) ++ '\x7b' :: (mid ++ '\x7d' :: (w₂ ++ p₂)) := by
      simp
    rw [hsh]
    simp only [repairL]
    rw [pyStripL_wrapped (p₁ ++ w₁) mid (w₂ ++ p₂)]
    rw [jsonTextOf_wrapped ((p₁ ++ w₁).dropWhile isPySpace) mid
      (dropTrail isPySpace (w₂ ++ p₂))
      (fun x hx heq => by
        have hm := mem_of_mem_dropWhile isPySpace (p₁ ++ w₁) x hx
        rcases List.mem_append.mp hm with hm | hm
        · rw [heq] at hm
          exact h1 hm
        · have := hw₁ x hm
          rw [heq] at this
          exact absurd this (by decide))
      (fun x hx heq => by
        have hm := mem_of_mem_dropTrail isPySpace (w₂ ++ p₂) x hx
        rcases List.mem_append.mp hm with hm | hm
        · have := hw₂ x hm
          rw [heq] at this
          exact absurd this (by decide)
        · rw [heq] at hm
          exact h2 hm)]
    rw [hpl]
  exact ⟨by rw [hwrap, hbare], hbare⟩

/-- C8 counterexample: with arbitrary prose the claim fails — prose whose
leading part itself contains an opening brace widens the brace span, the
parse of the widened span fails, and the repairer degrades to the error
record instead of the object parsed from the bare text. -/
theorem c8_counterexample :
    isErrRecord (repair "here is \x7b the answer: \x7b\"a\": 1\x7d") = true ∧
    repair "\x7b\"a\": 1\x7d" = Json.obj [("a", Json.num "1")] ∧
    isErrRecord (repair "\x7b\"a\": 1\x7d") = false :=
  ⟨rfl, rfl, rfl⟩

/-- C8 witness: a concrete prose-wrapped object for the corrected claim. -/
theorem c8_witness :
    repairL ("note ".data ++ "\x7b\"a\": 1\x7d".data ++ " done".data) =
        repairL "\x7b\"a\": 1\x7d".data ∧
      repairL "\x7b\"a\": 1\x7d".data = Json.obj [("a", Json.num "1")] :=
  c8_prose_wrapped "note ".data " done".data "\x7b\"a\": 1\x7d".data
    [("a", Json.num "1")] (by decide) (by decide) (by rfl)
